import Mathlib

/-!
# Verification of the Lumen analysis engine

A shallow embedding of the core of the Lumen spreadsheet-audit engine
(`src/models.py`, `src/parser.py`, `src/analyzer.py`, `src/diff.py`),
with theorems settling the frozen claims about it.

Conventions:
* Python dicts are modelled as association lists in insertion order, with
  `upsert` mirroring `d[k] = v` (overwrite keeps the original position).
* Python floats are modelled as `ℚ`; `int(x)` (truncation toward zero) is
  `pyInt`.
* Python exceptions are modelled with `Except` where a claim is about them.
-/

namespace Lumen

/-- Python `int(x)` on a float: truncation toward zero. -/
def pyInt (q : ℚ) : ℤ := if q < 0 then ⌈q⌉ else ⌊q⌋

/-! ## Data model (`src/models.py`) -/

/-- `RiskCategory` enum (`models.py` lines 49-67): the 3-tier triage
categories. -/
inductive RiskCategory where
  | fatalError
  | integrityRisk
  | structuralDebt
  deriving DecidableEq, Repr

/-- The entries of the open `RiskAlert.details` dict that the embedded code
paths read or write (`analyzer.py`).  An absent key is `none`. -/
structure Details where
  formula : Option String := none
  hardcodedValue : Option String := none
  allHardcodedValues : Option (List String) := none
  impactCount : Option ℕ := none
  cycle : Option (List String) := none
  cycleLength : Option ℕ := none
  totalCycles : Option ℕ := none
  instanceCount : Option ℕ := none
  cellList : Option (List String) := none
  pattern : Option String := none
  likelihoodAssessment : Option String := none
  riskScore : Option ℚ := none
  categoryWeight : Option ℚ := none
  errorProbability : Option ℚ := none
  deriving DecidableEq, Repr

/-- `RiskAlert` dataclass (`models.py` lines 106-130). -/
structure RiskAlert where
  riskType : String
  severity : String
  sheet : String
  cell : String
  description : String
  details : Details := {}
  rowLabel : Option String := none
  colLabel : Option String := none
  category : Option RiskCategory := none
  deriving DecidableEq, Repr

instance : Inhabited RiskAlert :=
  ⟨{ riskType := "", severity := "", sheet := "", cell := "", description := "" }⟩

/-- A cell value: Python `Any` restricted to the shapes the embedded code
distinguishes (absent, string, number). -/
inductive CellValue where
  | noneV
  | str (s : String)
  | num (q : ℚ)
  deriving DecidableEq, Repr

/-- `CellInfo` dataclass (`models.py` lines 20-46). -/
structure CellInfo where
  sheet : String
  address : String
  value : CellValue := .noneV
  formula : Option String := none
  dependencies : List String := []
  isDynamic : Bool := false
  isMerged : Bool := false
  mergedRange : Option String := none
  deriving DecidableEq, Repr

/-- Python truthiness of a cell value (`if cell.value:`): `None`, `""` and
`0` are falsy. -/
def CellValue.truthy : CellValue → Bool
  | .noneV => false
  | .str s => s ≠ ""
  | .num q => q ≠ 0

/-- Python `str(v)` for a cell value (only ever applied to truthy values in
the embedded code; the rendering of numbers is a modelling choice that both
sides of every comparison share). -/
def CellValue.pyStr : CellValue → String
  | .noneV => "None"
  | .str s => s
  | .num q => toString q

/-- A directed graph as `networkx.DiGraph` is used by the source: a node
list and an edge list, both without duplicates when built by
`buildDependencyGraph`. -/
structure DiGraph where
  nodes : List String
  edges : List (String × String)
  deriving DecidableEq, Repr

/-- `ModelAnalysis` dataclass (`models.py` lines 193-213), restricted to the
fields the claims touch. `cells` is the insertion-ordered dict keyed by
`"Sheet!Address"`. -/
structure ModelAnalysis where
  filename : String
  sheets : List String
  cells : List (String × CellInfo)
  risks : List RiskAlert
  healthScore : ℤ
  graph : DiGraph
  mergedRanges : List (String × List String) := []
  deriving DecidableEq, Repr

/-- Python dict lookup `d.get(k)` on an (insertion-ordered, duplicate-free)
association list. -/
def dictGet {κ α : Type} [DecidableEq κ] (l : List (κ × α)) (k : κ) : Option α :=
  (l.find? (fun p => p.1 = k)).map (·.2)

/-- Python dict write `d[k] = v`: overwrite in place, append if absent. -/
def upsert {κ α : Type} [DecidableEq κ] (k : κ) (v : α) : List (κ × α) → List (κ × α)
  | [] => [(k, v)]
  | (k', v') :: rest => if k' = k then (k, v) :: rest else (k', v') :: upsert k v rest

/-! ## Small helpers shared by the analyzer and the diff engine -/

/-- `openpyxl.utils.column_index_from_string`: column letters to a 1-based
index (A=1, …, Z=26, AA=27, …). -/
def colIndexFromString (s : String) : ℕ :=
  s.toList.foldl (fun acc c => acc * 26 + (c.toNat - 'A'.toNat + 1)) 0

/-- The leading `[A-Z]+` run of an address. -/
def leadingLetters (s : String) : List Char :=
  s.toList.takeWhile (fun c => 'A' ≤ c ∧ c ≤ 'Z')

/-- The digit run that follows the leading letters of an address. -/
def digitsAfterLetters (s : String) : List Char :=
  ((s.toList.dropWhile (fun c => 'A' ≤ c ∧ c ≤ 'Z')).takeWhile Char.isDigit)

/-- Value of a digit string. -/
def digitsToNat (l : List Char) : ℕ :=
  l.foldl (fun acc c => acc * 10 + (c.toNat - '0'.toNat)) 0

/-- `_extract_row_number` (`analyzer.py` lines 439-442, `diff.py` lines
414-417): `re.match(r'[A-Z]+(\d+)', a)`, 0 when there is no match. -/
def extractRowNumber (a : String) : ℕ :=
  if leadingLetters a ≠ [] ∧ digitsAfterLetters a ≠ [] then
    digitsToNat (digitsAfterLetters a)
  else 0

/-- `_extract_column_letter` (`diff.py` lines 419-422), "" when there is no
match. -/
def extractColumnLetter (a : String) : String :=
  if leadingLetters a ≠ [] ∧ digitsAfterLetters a ≠ [] then
    String.mk (leadingLetters a)
  else ""

/-- `_extract_row_col` (`analyzer.py` lines 444-464): `(row, column-index)`
of an address, `(0, 0)` when the regex does not match. -/
def extractRowCol (a : String) : ℕ × ℕ :=
  if leadingLetters a ≠ [] ∧ digitsAfterLetters a ≠ [] then
    (digitsToNat (digitsAfterLetters a), colIndexFromString (String.mk (leadingLetters a)))
  else (0, 0)

/-- Python `s.split(sep)` for a single separator character, on char lists
(structural recursion, so concrete instances reduce in the kernel). -/
def splitCharList (sep : Char) : List Char → List (List Char)
  | [] => [[]]
  | c :: rest =>
    if c = sep then [] :: splitCharList sep rest
    else
      match splitCharList sep rest with
      | [] => [[c]]
      | h :: t => (c :: h) :: t

/-- Python `s.split(sep)` for a single separator character. -/
def pySplit (sep : Char) (s : String) : List String :=
  (splitCharList sep s.toList).map String.mk

/-- Python `s.startswith(p)`. -/
def pyStartsWith (p s : String) : Bool := p.toList.isPrefixOf s.toList

/-- The part of a `"Sheet!Address"` key before the `!`
(`cell_addr.split('!')[0]`). -/
def sheetPart (s : String) : String := (pySplit '!' s).headD ""

/-- The part of a `"Sheet!Address"` key after the `!`
(`cell_addr.split('!')[1]`; the embedded code only applies it under the
well-formedness hypothesis that the split has exactly two parts). -/
def addrPart (s : String) : String := (pySplit '!' s).getD 1 ""

/-- A graph node / cell key splits at `!` into exactly a sheet and an
address, as every key built by the parser does.  (With more or fewer
parts, `sheet, address = first_cell.split('!')` in the source would raise.) -/
def wellFormedKey (s : String) : Prop := (pySplit '!' s).length = 2

instance (s : String) : Decidable (wellFormedKey s) := by
  unfold wellFormedKey; infer_instance

/-! ## Risk triage (`analyzer.py` lines 2141-2260) -/

/-- `check_hardcode_consistency` (`analyzer.py` lines 2207-2260): a hardcode
risk is consistent iff all hardcode risks sharing its (non-`None`) row label
report the same value. -/
def checkHardcodeConsistency (risk : RiskAlert) (allRisks : List RiskAlert) : Bool :=
  if ¬ (risk.riskType = "hidden_hardcode" ∨ risk.riskType = "Hidden Hardcode") then true
  else match risk.details.hardcodedValue with
  | none => true
  | some _ =>
    let sameLabelRisks := allRisks.filter (fun r =>
      (r.riskType = "hidden_hardcode" ∨ r.riskType = "Hidden Hardcode")
      ∧ r.rowLabel = risk.rowLabel ∧ r.rowLabel ≠ none)
    if sameLabelRisks.length ≤ 1 then true
    else
      let values : List String := sameLabelRisks.filterMap (fun r => r.details.hardcodedValue)
      if values.isEmpty then true
      else values.dedup.length = 1

/-- `classify_risk` (`analyzer.py` lines 2141-2204).  Returns the category
together with the (possibly re-typed) risk: an inconsistent hardcode is
re-tagged `"Inconsistent Value"` in place. -/
def classifyRisk (risk : RiskAlert) (allRisks : List RiskAlert) :
    RiskCategory × RiskAlert :=
  if risk.riskType = "circular_reference" ∨ risk.riskType = "Circular Reference" then
    (.fatalError, risk)
  else if risk.riskType = "phantom_link" ∨ risk.riskType = "Phantom Link"
      ∨ risk.riskType = "external_link" ∨ risk.riskType = "External Link" then
    (.fatalError, risk)
  else if risk.riskType = "formula_error" ∨ risk.riskType = "Formula Error" then
    (.fatalError, risk)
  else if risk.riskType = "inconsistent_formula" ∨ risk.riskType = "Inconsistent Formula" then
    if risk.details.impactCount.getD 0 = 0 then (.structuralDebt, risk)
    else (.integrityRisk, risk)
  else if risk.riskType = "inconsistent_value" ∨ risk.riskType = "Inconsistent Value"
      ∨ risk.riskType = "value_conflict" ∨ risk.riskType = "Value Conflict" then
    (.integrityRisk, risk)
  else if risk.riskType = "logic_alert" ∨ risk.riskType = "Logic Alert" then
    (.integrityRisk, risk)
  else if risk.riskType = "hidden_hardcode" ∨ risk.riskType = "Hidden Hardcode" then
    if allRisks ≠ [] ∧ ¬ checkHardcodeConsistency risk allRisks then
      (.integrityRisk, { risk with riskType := "Inconsistent Value" })
    else (.structuralDebt, risk)
  else if risk.riskType = "merged_cell" ∨ risk.riskType = "Merged Cell" then
    (.structuralDebt, risk)
  else (.structuralDebt, risk)

/-- One step of `RiskTriageEngine.classify_all` (`analyzer.py` lines
2285-2304): classify the risk at index `i` against the current (mutated)
list and store category and re-typed risk back. -/
def classifyAllStep (state : List RiskAlert) (i : ℕ) : List RiskAlert :=
  match state.get? i with
  | none => state
  | some risk =>
    let (category, risk') := classifyRisk risk state
    state.set i { risk' with category := some category }

/-- `RiskTriageEngine.classify_all`: sequentially classify every risk,
mutations to earlier entries being visible to later consistency checks. -/
def classifyAll (risks : List RiskAlert) : List RiskAlert :=
  (List.range risks.length).foldl classifyAllStep risks

/-! ## Health score (`analyzer.py` lines 1159-1225)

### IEEE binary64 arithmetic

Python floats are IEEE binary64 values, and `_calculate_health_score`
accumulates `score -= base_penalty * multiplier` in them, so float
rounding is part of the function's observable behaviour (the final
`int(score)` truncates the rounded sum).  A finite double is modelled as
an integer mantissa times a power of two (`F64`); each operation forms
the exact integer result and rounds it to 53 significant bits with round
to nearest, ties to even — the semantics of CPython's float `*` and `-`.
All values arising in `_calculate_health_score` stay far inside the
normal range of binary64, so neither overflow nor subnormals can occur
and they are not modelled. -/

/-- Fuel-driven ⌊log₂⌋ (structural, so that the kernel can evaluate it). -/
def log2Go : ℕ → ℕ → ℕ
  | 0, _ => 0
  | fuel+1, n => if 2 ≤ n then log2Go fuel (n / 2) + 1 else 0

/-- `⌊log₂ n⌋` for `n ≥ 1` (fuel `n` always suffices). -/
def log2N (n : ℕ) : ℕ := log2Go n n

/-- Round `a / b` to the nearest integer, ties to even. -/
def roundMantissa (a b : ℕ) : ℕ :=
  if 2 * (a % b) < b then a / b
  else if b < 2 * (a % b) then a / b + 1
  else if a / b % 2 = 0 then a / b else a / b + 1

/-- The binade of `p / q`: the `c` with `2^c ≤ p/q < 2^(c+1)`. -/
def cOf (p q : ℕ) : ℤ :=
  if q * 2 ^ log2N p ≤ p * 2 ^ log2N q then (log2N p : ℤ) - log2N q
  else (log2N p : ℤ) - log2N q - 1

/-- Mantissa/exponent of the correctly rounded 53-bit value of `p / q`
(before the carry bump): scale `p / q` into `[2^52, 2^53)` and round. -/
def roundPQ0 (p q : ℕ) : ℕ × ℤ :=
  let e : ℤ := cOf p q - 52
  let m : ℕ :=
    if 0 ≤ e then roundMantissa p (q * 2 ^ e.toNat)
    else roundMantissa (p * 2 ^ (-e).toNat) q
  (m, e)

/-- Correctly rounded 53-bit value of `p / q`, renormalized when rounding
carried up to `2^53`. -/
def roundPQ (p q : ℕ) : ℕ × ℤ :=
  let r := roundPQ0 p q
  if r.1 = 2 ^ 53 then (2 ^ 52, r.2 + 1) else r

/-- A finite binary64 value: `m * 2^e`. -/
structure F64 where
  m : ℤ
  e : ℤ
deriving DecidableEq

/-- The double nearest `num / den` (round to nearest, ties to even). -/
def normQ (num : ℤ) (den : ℕ) : F64 :=
  if num = 0 then ⟨0, 0⟩
  else
    let r := roundPQ num.natAbs den
    ⟨if num < 0 then -(r.1 : ℤ) else (r.1 : ℤ), r.2⟩

/-- Exact scaling by `2^k` (exponents never leave the binary64 range here). -/
def fscale (x : F64) (k : ℤ) : F64 :=
  if x.m = 0 then ⟨0, 0⟩ else ⟨x.m, x.e + k⟩

/-- IEEE subtraction: round the exact difference. -/
def fsub (x y : F64) : F64 :=
  let e0 := min x.e y.e
  fscale (normQ (x.m * 2 ^ (x.e - e0).toNat - y.m * 2 ^ (y.e - e0).toNat) 1) e0

/-- IEEE multiplication: round the exact product. -/
def fmul (x y : F64) : F64 :=
  fscale (normQ (x.m * y.m) 1) (x.e + y.e)

/-- Python `int()` on a double: truncation toward zero. -/
def ftrunc (x : F64) : ℤ :=
  if 0 ≤ x.e then x.m * 2 ^ x.e.toNat
  else if x.m < 0 then -((x.m.natAbs / 2 ^ (-x.e).toNat : ℕ) : ℤ)
  else ((x.m.natAbs / 2 ^ (-x.e).toNat : ℕ) : ℤ)

/-- The rational value of a mantissa/exponent pair. -/
def fvalP (r : ℕ × ℤ) : ℚ := (r.1 : ℚ) * (2:ℚ) ^ r.2

/-- The rational value of a double. -/
def fval (x : F64) : ℚ := (x.m : ℚ) * (2:ℚ) ^ x.e

/-- Zero, or a normalized 53-bit mantissa. -/
def isCanon (x : F64) : Prop :=
  x.m = 0 ∨ (2 ^ 52 ≤ x.m.natAbs ∧ x.m.natAbs < 2 ^ 53)

/-- `fatal_penalties` (`analyzer.py` lines 1187-1192): the float literals
`5.0`, `4.0`, `3.0`, `1.0`; `none` for an unrecognized severity (which
the loop skips). -/
def fatalPenalties (severity : String) : Option F64 :=
  if severity = "Critical" then some (normQ 5 1)
  else if severity = "High" then some (normQ 4 1)
  else if severity = "Medium" then some (normQ 3 1)
  else if severity = "Low" then some (normQ 1 1)
  else none

/-- `category_multipliers` (`analyzer.py` lines 1195-1199): the float
literals `1.0`, `0.5` and `0.1` — the last being the double nearest
`1/10`. -/
def categoryMultipliers : RiskCategory → F64
  | .fatalError => normQ 1 1
  | .integrityRisk => normQ 1 2
  | .structuralDebt => normQ 1 10

/-- One iteration of the scoring loop (`analyzer.py` lines 1206-1222):
skip an unrecognized category or severity, otherwise subtract
`base_penalty * multiplier` in binary64 arithmetic. -/
def penaltyStep (score : F64) (r : RiskAlert) : F64 :=
  match r.category, fatalPenalties r.severity with
  | some c, some base => fsub score (fmul base (categoryMultipliers c))
  | _, _ => score

/-- The scoring loop of `_calculate_health_score` (`analyzer.py` lines
1184-1225) applied to already-classified risks: start at `100.0`,
subtract each risk's penalty in float arithmetic, truncate to `int`,
floor at 30. -/
def healthScoreLoop (risks : List RiskAlert) : ℤ :=
  max 30 (ftrunc (risks.foldl penaltyStep (normQ 100 1)))

/-- `_calculate_health_score` (`analyzer.py` lines 1159-1225): classify
all risks, then run the scoring loop. -/
def calculateHealthScore (risks : List RiskAlert) : ℤ :=
  healthScoreLoop (classifyAll risks)


/-! ## Formula tokenization

`ModelAnalyzer._detect_hidden_hardcodes` (`analyzer.py` lines 98-181)
delegates lexing to the third-party `openpyxl.formula.tokenizer.Tokenizer`.
The model below reproduces that tokenizer's behaviour on the plain
arithmetic formulas the claims exercise (numeric literals, cell references,
operators and parentheses): a maximal run of digits and dots is an
OPERAND/NUMBER token, a letter-led run of letters and digits is an
OPERAND/RANGE token, everything else is a non-operand token.  The detector
only reads OPERAND/NUMBER tokens. -/

/-- A token as the hardcode detector distinguishes them. -/
inductive FormulaToken where
  | number (s : String)
  | cellRef (s : String)
  | other (c : Char)
  deriving DecidableEq, Repr

/-- Is this a character of a numeric literal? -/
def isNumChar (c : Char) : Bool := c.isDigit ∨ c = '.'

/-- Is this a character that may start a reference token? -/
def isRefStart (c : Char) : Bool := c.isAlpha

/-- Is this a character that may continue a reference token? -/
def isRefChar (c : Char) : Bool := c.isAlpha ∨ c.isDigit

/-- Character-level scanner for plain arithmetic formulas.  Structural
recursion on a fuel that bounds the number of characters left; each step
consumes at least one character, so `fuel = l.length` never runs out. -/
def scanTokensGo : ℕ → List Char → List FormulaToken
  | 0, _ => []
  | _ + 1, [] => []
  | fuel + 1, c :: rest =>
    if isNumChar c then
      let run := rest.takeWhile isNumChar
      .number (String.mk (c :: run)) :: scanTokensGo fuel (rest.dropWhile isNumChar)
    else if isRefStart c then
      let run := rest.takeWhile isRefChar
      .cellRef (String.mk (c :: run)) :: scanTokensGo fuel (rest.dropWhile isRefChar)
    else
      .other c :: scanTokensGo fuel rest

/-- Scan a full character list. -/
def scanTokens (l : List Char) : List FormulaToken := scanTokensGo l.length l

/-- Tokenize a formula string: the tokenizer is handed the formula with its
leading `=`, which produces no operand token. -/
def tokenizeFormula (s : String) : List FormulaToken :=
  scanTokens (s.toList.dropWhile (fun c => c = '='))

/-- Python `float(s)` restricted to the token shapes the scanner can
produce: digits with at most one dot parse, anything else raises (`none`).
The value is returned exactly, as a scaled natural `(mantissa, scale)`
meaning `mantissa / 10 ^ scale`, so that later comparisons stay
kernel-computable. -/
def parseDecimal (s : String) : Option (ℕ × ℕ) :=
  match pySplit '.' s with
  | [intPart] =>
    if intPart ≠ "" ∧ intPart.toList.all Char.isDigit then
      some (digitsToNat intPart.toList, 0)
    else none
  | [intPart, fracPart] =>
    if (intPart ≠ "" ∨ fracPart ≠ "") ∧ intPart.toList.all Char.isDigit
        ∧ fracPart.toList.all Char.isDigit then
      some (digitsToNat intPart.toList * 10 ^ fracPart.length
        + digitsToNat fracPart.toList, fracPart.length)
    else none
  | _ => none

/-- The rational value of a parsed decimal. -/
def decimalToRat (p : ℕ × ℕ) : ℚ := (p.1 : ℚ) / 10 ^ p.2

/-- Exact equality test between a parsed decimal and a rational (Python
float equality, e.g. `12.0 == 12`), by integer cross-multiplication. -/
def valEqRat (p : ℕ × ℕ) (q : ℚ) : Bool :=
  (p.1 : ℤ) * q.den = q.num * 10 ^ p.2

/-! ## Hidden-hardcode detection (`analyzer.py` lines 98-181) -/

/-- The common constants whose hardcodes get LOW severity
(`analyzer.py` line 122). -/
def commonConstants : List ℚ := [0, 1, 12]

/-- The numeric literals of one formula that survive the allow-list: every
OPERAND/NUMBER token whose parsed value is not a user-configured constant
(`analyzer.py` lines 136-153; a `float` failure skips the token). -/
def hardcodedValuesOf (formulaStr : String) (allowedConstants : List ℚ) : List String :=
  (tokenizeFormula formulaStr).filterMap (fun t =>
    match t with
    | .number s =>
      match parseDecimal s with
      | some p => if allowedConstants.any (valEqRat p) then none else some s
      | none => none
    | _ => none)

/-- The alert `_detect_hidden_hardcodes` creates for one cell holding a
formula (`analyzer.py` lines 128-175): `none` when no literal survives. -/
def hardcodeAlertFor (cellInfo : CellInfo) (f : String) (allowedConstants : List ℚ) :
    Option RiskAlert :=
  let formulaStr := if pyStartsWith "=" f then f else "=" ++ f
  let values := hardcodedValuesOf formulaStr allowedConstants
  match values with
  | [] => none
  | firstValue :: _ =>
    let isCommon : Bool :=
      match parseDecimal firstValue with
      | some p => commonConstants.any (valEqRat p)
      | none => false
    some {
      riskType := "Hidden Hardcode"
      severity := if isCommon then "Low" else "High"
      sheet := cellInfo.sheet
      cell := cellInfo.address
      description := "Formula contains hardcoded value(s): "
        ++ String.intercalate ", " values
      details := {
        formula := some f
        hardcodedValue := some firstValue
        allHardcodedValues := some values } }

/-- `ModelAnalyzer._detect_hidden_hardcodes` (`analyzer.py` lines 98-181):
one alert per formula cell that contains at least one non-allowed numeric
literal, in cell-dict order.  A cell whose formula is `None` or `""` is
skipped (Python truthiness of `cell_info.formula`). -/
def detectHiddenHardcodes (cells : List (String × CellInfo))
    (allowedConstants : List ℚ) : List RiskAlert :=
  cells.filterMap (fun p =>
    match p.2.formula with
    | none => none
    | some f => if f = "" then none else hardcodeAlertFor p.2 f allowedConstants)

/-! ## Dependency-graph queries

`networkx` is third-party; the pieces the source uses are modelled here:
`graph.predecessors` (direct in-neighbours), `nx.descendants` (all nodes
reachable from a source, the source itself excluded), and
`nx.simple_cycles`.  Reachability is computed by saturating a visited list
— `nodes.length` rounds always reach the fixpoint — and proved equivalent
to `Relation.ReflTransGen` of the edge relation. -/

/-- The out-neighbours of `x`. -/
def successors (g : DiGraph) (x : String) : List String :=
  (g.edges.filter (fun e => e.1 = x)).map (·.2)

/-- The edge relation of a graph. -/
def edgeRel (g : DiGraph) (a b : String) : Prop := (a, b) ∈ g.edges

/-- Every edge endpoint is a node, as `nx.add_edge` guarantees and
`buildDependencyGraph` establishes. -/
def graphWellFormed (g : DiGraph) : Prop :=
  ∀ e ∈ g.edges, e.1 ∈ g.nodes ∧ e.2 ∈ g.nodes

/-- Append the elements of `ys` that are not yet present (set-insert in
visiting order). -/
def addNew : List String → List String → List String
  | s, [] => s
  | s, y :: ys => addNew (if y ∈ s then s else s ++ [y]) ys

/-- One saturation round: add every out-neighbour of a visited node. -/
def stepList (g : DiGraph) (s : List String) : List String :=
  addNew s (s.flatMap (successors g))

/-- All nodes reachable from `x` (including `x`), by `g.nodes.length`
saturation rounds. -/
def reachList (g : DiGraph) (x : String) : List String :=
  (stepList g)^[g.nodes.length] [x]

/-! ## Query helpers (`models.py` lines 232-268) -/

/-- `ModelAnalysis.get_precedents` (`models.py` lines 232-246): `[]` when
the address is not a node, else the direct predecessors
(`graph.predecessors`). -/
def getPrecedents (g : DiGraph) (cellAddress : String) : List String :=
  if cellAddress ∈ g.nodes then
    (g.edges.filter (fun e => e.2 = cellAddress)).map (·.1)
  else []

/-- `nx.descendants(graph, x)`: all nodes reachable from `x`, excluding `x`
itself. -/
def descendantsOf (g : DiGraph) (x : String) : List String :=
  (reachList g x).filter (fun a => a ≠ x)

/-- `ModelAnalysis.get_dependents` (`models.py` lines 248-268): `[]` when
the address is not a node, else all transitive descendants. -/
def getDependents (g : DiGraph) (cellAddress : String) : List String :=
  if cellAddress ∈ g.nodes then descendantsOf g cellAddress else []

/-- `ModelAnalyzer._calculate_dominance` (`analyzer.py` lines 1577-1598):
the number of descendants, 0 for a non-node. -/
def calculateDominance (m : ModelAnalysis) (cellAddress : String) : ℕ :=
  if cellAddress ∈ m.graph.nodes then (descendantsOf m.graph cellAddress).length
  else 0

/-- `ModelAnalyzer._add_impact_scores` (`analyzer.py` lines 830-849): store
each risk's dominance at `"{sheet}!{cell}"` as `impact_count`. -/
def addImpactScores (risks : List RiskAlert) (m : ModelAnalysis) : List RiskAlert :=
  risks.map (fun risk =>
    { risk with details :=
      { risk.details with
        impactCount := some (calculateDominance m (risk.sheet ++ "!" ++ risk.cell)) } })

/-! ## Dependency-graph construction (`parser.py` lines 377-406) -/

/-- Add one edge with `nx.add_edge`'s set semantics (ignored when already
present). -/
def insertEdge (es : List (String × String)) (e : String × String) :
    List (String × String) :=
  if e ∈ es then es else es ++ [e]

/-- The edge list of `ExcelParser._build_dependency_graph` (`parser.py`
lines 393-404): for every non-dynamic cell, an edge from each dependency
that exists among the parsed cells to the cell itself. -/
def buildEdges (cells : List (String × CellInfo)) : List (String × String) :=
  cells.foldl (fun acc p =>
    if p.2.isDynamic then acc
    else p.2.dependencies.foldl (fun acc2 dep =>
      if (cells.map (·.1)).contains dep then insertEdge acc2 (dep, p.1) else acc2) acc) []

/-- `ExcelParser._build_dependency_graph` (`parser.py` lines 377-406): every
parsed cell is a node; dangling references add no edge. -/
def buildDependencyGraph (cells : List (String × CellInfo)) : DiGraph :=
  { nodes := cells.map (·.1), edges := buildEdges cells }

/-! ## Simple cycles and the circular-reference detector
(`analyzer.py` lines 183-241) -/

/-- Lexicographic comparison of char lists (kernel-computable stand-in for
`String ≤`, used only to pick one rotation per cycle). -/
def charListLe : List Char → List Char → Bool
  | [], _ => true
  | _ :: _, [] => false
  | a :: as, b :: bs =>
    if a.toNat < b.toNat then true
    else if a.toNat = b.toNat then charListLe as bs
    else false

/-- String comparison on the char lists. -/
def strLe (a b : String) : Bool := charListLe a.toList b.toList

/-- Are consecutive members related by `r` (computable `Chain'`)? -/
def chainB {α : Type} (r : α → α → Bool) : List α → Bool
  | [] => true
  | [_] => true
  | a :: b :: rest => r a b ∧ chainB r (b :: rest)

/-- Insert `a` at every position of `l`. -/
def insertEverywhere {α : Type} (a : α) : List α → List (List α)
  | [] => [[a]]
  | b :: rest => (a :: b :: rest) :: (insertEverywhere a rest).map (b :: ·)

/-- All permutations of a list (structural, kernel-computable). -/
def permsOf {α : Type} : List α → List (List α)
  | [] => [[]]
  | a :: rest => (permsOf rest).flatMap (insertEverywhere a)

/-- Does the list of nodes form a simple cycle of `g` in its canonical
rotation?  Nonempty, duplicate-free, consecutive edges present including
the wrap-around, and starting at its least node (one rotation per cycle,
standing in for `nx.simple_cycles`' unspecified rotation). -/
def isCanonicalCycle (g : DiGraph) : List String → Bool
  | [] => false
  | c :: rest =>
    chainB (fun a b => (a, b) ∈ g.edges) (c :: rest)
    ∧ ((c :: rest).getLast (by simp), c) ∈ g.edges
    ∧ (c :: rest).Nodup
    ∧ rest.all (fun y => strLe c y)

/-- A model of the third-party `nx.simple_cycles(graph)`: every simple
cycle of the graph, each exactly once, here in its least-node-first
rotation, enumerated by brute force over duplicate-free node sequences. -/
def simpleCycles (g : DiGraph) : List (List String) :=
  (g.nodes.dedup.sublists.flatMap permsOf).filter (isCanonicalCycle g)

/-- The per-cycle alert of `_detect_circular_references` (`analyzer.py`
lines 202-222). -/
def cycleAlert (cycle : List String) : RiskAlert :=
  let firstCell := cycle.headD ""
  let cycleStr := String.intercalate " → " ((cycle.take 5).map addrPart)
  let cycleStr := if cycle.length > 5 then
      cycleStr ++ " ... (" ++ toString cycle.length ++ " cells total)"
    else cycleStr
  { riskType := "Circular Reference"
    severity := "Critical"
    sheet := sheetPart firstCell
    cell := addrPart firstCell
    description := "Circular reference detected: " ++ cycleStr
    details := { cycle := some cycle, cycleLength := some cycle.length } }

/-- The summary alert emitted beyond 100 cycles (`analyzer.py` lines
224-235). -/
def cycleSummaryAlert (totalCycles : ℕ) : RiskAlert :=
  { riskType := "Circular Reference"
    severity := "Critical"
    sheet := "Multiple"
    cell := "Multiple"
    description := "100+ circular references detected (showing first 100)"
    details := { totalCycles := some totalCycles } }

/-- The body of `_detect_circular_references` after the `nx.simple_cycles`
call (`analyzer.py` lines 196-235): report the first 100 cycles, plus one
summary alert when there are more. -/
def detectCircularFromCycles (cycles : List (List String)) : List RiskAlert :=
  (cycles.take 100).map cycleAlert
    ++ (if cycles.length > 100 then [cycleSummaryAlert cycles.length] else [])

/-- `ModelAnalyzer._detect_circular_references` (`analyzer.py` lines
183-241). -/
def detectCircularReferences (g : DiGraph) : List RiskAlert :=
  detectCircularFromCycles (simpleCycles g)

/-! ## Risk compression (`analyzer.py` lines 370-585) -/

/-- Python `s.strip()`. -/
def pyStrip (s : String) : String :=
  String.mk (((s.toList.dropWhile Char.isWhitespace).reverse.dropWhile
    Char.isWhitespace).reverse)

/-- Insert into a list sorted by `f`, after all elements with a key `≤`
the new one. -/
def insertSorted {α : Type} (f : α → ℕ) (a : α) : List α → List α
  | [] => [a]
  | b :: rest => if f a < f b then a :: b :: rest else b :: insertSorted f a rest

/-- Stable sort by a numeric key: Python's stable `sorted(l, key=f)`. -/
def sortByKey {α : Type} (f : α → ℕ) (l : List α) : List α :=
  l.foldl (fun acc a => insertSorted f a acc) []

/-- The grouping key of `_compress_risks` (`analyzer.py` lines 392-417).
The source's fallback key `(type, sheet, cell, id(risk))` is unique per
object; `id(risk)` is modelled by the risk's index in the list. -/
def groupKey (risk : RiskAlert) (idx : ℕ) : String × String × String :=
  if risk.riskType = "Hidden Hardcode" then
    (risk.riskType, risk.sheet, risk.details.hardcodedValue.getD "")
  else if risk.riskType = "External Link" ∨ risk.riskType = "Phantom Link" then
    (risk.riskType, risk.sheet, "external_link")
  else if risk.riskType = "Inconsistent Formula" then
    let firstCell := pyStrip ((pySplit ':' ((pySplit ',' risk.cell).headD "")).headD "")
    if leadingLetters firstCell ≠ [] ∧ digitsAfterLetters firstCell ≠ [] then
      (risk.riskType, risk.sheet, "row_" ++ String.mk (digitsAfterLetters firstCell))
    else (risk.riskType, risk.sheet, "inconsistent")
  else if risk.riskType = "Inconsistent Value" ∨ risk.riskType = "Value Conflict" then
    (risk.riskType, risk.sheet, "conflict")
  else
    (risk.riskType, risk.sheet, "cell_" ++ risk.cell ++ "#" ++ toString idx)

/-- Append a risk to its group, preserving first-seen key order
(`defaultdict` + dict insertion order). -/
def appendToGroup (k : String × String × String) (r : RiskAlert) :
    List ((String × String × String) × List RiskAlert) →
    List ((String × String × String) × List RiskAlert)
  | [] => [(k, [r])]
  | (k', rs) :: rest =>
    if k' = k then (k', rs ++ [r]) :: rest else (k', rs) :: appendToGroup k r rest

/-- Group risks by their compression key (`analyzer.py` lines 389-417). -/
def groupRisks (risks : List RiskAlert) :
    List ((String × String × String) × List RiskAlert) :=
  risks.enum.foldl (fun groups p => appendToGroup (groupKey p.2 p.1) p.2 groups) []

/-- The loop of `_split_by_spatial_proximity` (`analyzer.py` lines
484-512): extend the current cluster while both the row gap and the column
gap to the previous member are `≤ maxGap`, else start a new cluster. -/
def splitGo (maxGap : ℕ) : List RiskAlert → List RiskAlert → ℕ × ℕ →
    List (List RiskAlert)
  | [], currentCluster, _ => [currentCluster]
  | r :: rest, currentCluster, prev =>
    let curr := extractRowCol r.cell
    let rowGap := max curr.1 prev.1 - min curr.1 prev.1
    let colGap := max curr.2 prev.2 - min curr.2 prev.2
    if rowGap ≤ maxGap ∧ colGap ≤ maxGap then
      splitGo maxGap rest (currentCluster ++ [r]) curr
    else
      currentCluster :: splitGo maxGap rest [r] curr

/-- `ModelAnalyzer._split_by_spatial_proximity` (`analyzer.py` lines
466-514). -/
def splitBySpatialProximity (sortedRisks : List RiskAlert) (maxGap : ℕ) :
    List (List RiskAlert) :=
  match sortedRisks with
  | [] => []
  | r :: rest => splitGo maxGap rest [r] (extractRowCol r.cell)

/-- `ModelAnalyzer._create_compressed_risk` (`analyzer.py` lines 516-585)
for a nonempty cluster. -/
def createCompressedRisk (firstRisk : RiskAlert) (rest : List RiskAlert) : RiskAlert :=
  let group := firstRisk :: rest
  let cells := group.map (·.cell)
  let locationStr :=
    match cells with
    | [c] => c
    | [c1, c2] => c1 ++ ", " ++ c2
    | _ => cells.headD "" ++ ":" ++ cells.getLastD ""
  let totalImpact := (group.map (fun r => r.details.impactCount.getD 0)).sum
  let n := group.length
  if firstRisk.riskType = "Hidden Hardcode" then
    let v := firstRisk.details.hardcodedValue.getD ""
    { riskType := firstRisk.riskType, severity := firstRisk.severity
      sheet := firstRisk.sheet, cell := locationStr
      description := "Hardcoded value '" ++ v ++ "' (" ++ toString n ++ " instances)"
      details := { hardcodedValue := some v
                   instanceCount := some n
                   cellList := some cells
                   impactCount := some totalImpact } }
  else if firstRisk.riskType = "External Link" ∨ firstRisk.riskType = "Phantom Link" then
    { riskType := firstRisk.riskType, severity := firstRisk.severity
      sheet := firstRisk.sheet, cell := locationStr
      description := "External link detected (" ++ toString n ++ " instances)"
      details := { instanceCount := some n
                   cellList := some cells
                   impactCount := some totalImpact } }
  else if firstRisk.riskType = "Inconsistent Formula" then
    { riskType := firstRisk.riskType, severity := firstRisk.severity
      sheet := firstRisk.sheet, cell := locationStr
      description := "Inconsistent formula pattern (" ++ toString n ++ " instances)"
      details := { instanceCount := some n
                   cellList := some cells
                   impactCount := some totalImpact
                   formula := some (firstRisk.details.formula.getD "")
                   pattern := some (firstRisk.details.pattern.getD "")
                   likelihoodAssessment := some (firstRisk.details.likelihoodAssessment.getD "") } }
  else if firstRisk.riskType = "Inconsistent Value" ∨ firstRisk.riskType = "Value Conflict" then
    { riskType := firstRisk.riskType, severity := firstRisk.severity
      sheet := firstRisk.sheet, cell := locationStr
      description := "Conflicting values detected (" ++ toString n ++ " instances)"
      details := { instanceCount := some n
                   cellList := some cells
                   impactCount := some totalImpact } }
  else
    { riskType := firstRisk.riskType, severity := firstRisk.severity
      sheet := firstRisk.sheet, cell := locationStr
      description := firstRisk.riskType ++ " (" ++ toString n ++ " instances)"
      details := { instanceCount := some n
                   cellList := some cells
                   impactCount := some totalImpact } }

/-- Compress one group (`analyzer.py` lines 421-435): a singleton group is
kept as-is, a larger group is sorted by row, split into spatially
proximate clusters, and each cluster becomes one alert. -/
def compressGroup (group : List RiskAlert) : List RiskAlert :=
  match group with
  | [g] => [g]
  | _ =>
    (splitBySpatialProximity (sortByKey (fun r => extractRowNumber r.cell) group) 1).map
      (fun cluster =>
        match cluster with
        | [] => createCompressedRisk default []
        | f :: rest => createCompressedRisk f rest)

/-- `ModelAnalyzer._compress_risks` (`analyzer.py` lines 370-437). -/
def compressRisks (risks : List RiskAlert) : List RiskAlert :=
  (groupRisks risks).flatMap (fun p => compressGroup p.2)

/-! ## Quantitative severity (`analyzer.py` lines 851-932) -/

/-- Does `haystack` start with `needle`? -/
def startsWithList : List Char → List Char → Bool
  | [], _ => true
  | _ :: _, [] => false
  | a :: as, b :: bs => a = b ∧ startsWithList as bs

/-- Does `needle` occur inside `haystack`? -/
def containsList (needle : List Char) : List Char → Bool
  | [] => needle.isEmpty
  | h :: t => startsWithList needle (h :: t) ∨ containsList needle t

/-- Python substring test `needle in haystack`. -/
def pyContains (needle haystack : String) : Bool :=
  containsList needle.toList haystack.toList

/-- `category_weights` (`analyzer.py` lines 884-888). -/
def categoryWeights : RiskCategory → ℚ
  | .fatalError => 1
  | .integrityRisk => 7 / 10
  | .structuralDebt => 3 / 10

/-- The error-probability modifier (`analyzer.py` lines 898-911): only
`Inconsistent Formula` risks are modulated, by an (English) substring match
against their likelihood assessment. -/
def errorProbabilityOf (risk : RiskAlert) : ℚ :=
  if risk.riskType = "Inconsistent Formula" ∨ risk.riskType = "inconsistent_formula" then
    let likelihood := risk.details.likelihoodAssessment.getD ""
    if pyContains "Likely error" likelihood then 1
    else if pyContains "Uncertain" likelihood then 8 / 10
    else if pyContains "Possibly intentional" likelihood then 1 / 2
    else if pyContains "Likely intentional" likelihood then 3 / 10
    else 1
  else 1

/-- The severity thresholds (`analyzer.py` lines 916-924). -/
def severityFromScore (riskScore : ℚ) : String :=
  if riskScore ≥ 50 then "Critical"
  else if riskScore ≥ 20 then "High"
  else if riskScore ≥ 5 then "Medium"
  else "Low"

/-- Python's banker's rounding to the nearest integer. -/
def roundHalfEven (q : ℚ) : ℤ :=
  if q - ⌊q⌋ < 1 / 2 then ⌊q⌋
  else if q - ⌊q⌋ > 1 / 2 then ⌊q⌋ + 1
  else if Even ⌊q⌋ then ⌊q⌋ else ⌊q⌋ + 1

/-- Python `round(x, 1)`. -/
def round1 (q : ℚ) : ℚ := (roundHalfEven (q * 10) : ℚ) / 10

/-- One step of `_calculate_quantitative_severity` (`analyzer.py` lines
890-931): classify the risk at index `i` against the current list (the
classification may re-type it in place), recompute its severity from
`category_weight × impact × error_probability`, and record the scoring
details. -/
def quantSeverityStep (state : List RiskAlert) (i : ℕ) : List RiskAlert :=
  match state.get? i with
  | none => state
  | some risk =>
    let (category, risk1) := classifyRisk risk state
    let categoryWeight := categoryWeights category
    let impact : ℚ := (risk1.details.impactCount.getD 0 : ℕ)
    let errorProbability := errorProbabilityOf risk1
    let riskScore := categoryWeight * impact * errorProbability
    state.set i { risk1 with
      severity := severityFromScore riskScore
      details := { risk1.details with
        riskScore := some (round1 riskScore)
        categoryWeight := some categoryWeight
        errorProbability := some errorProbability } }

/-- `ModelAnalyzer._calculate_quantitative_severity` (`analyzer.py` lines
851-932): the sequential recomputation of every risk's severity. -/
def calculateQuantitativeSeverity (risks : List RiskAlert) : List RiskAlert :=
  (List.range risks.length).foldl quantSeverityStep risks

/-! ## Diff engine (`src/diff.py`) -/

/-- `ChangeCategory` dataclass (`models.py` lines 319-335), with values
rendered as the strings the source formats. -/
structure ChangeCategory where
  changeType : String
  severity : String
  oldValue : Option String
  newValue : Option String
  description : String
  deriving DecidableEq, Repr

/-- `DiffResult` dataclass (`models.py` lines 338-362). -/
structure DiffResult where
  oldScore : ℤ
  newScore : ℤ
  scoreDelta : ℤ
  logicChanges : List ChangeCategory := []
  inputUpdates : List ChangeCategory := []
  improvedRisks : List RiskAlert := []
  degradedRisks : List RiskAlert := []
  structuralChanges : List String := []
  rowMapping : List (ℕ × ℕ) := []
  deriving DecidableEq, Repr

/-- `CompositeKey` dataclass (`models.py` lines 271-287), restricted to the
fields the matcher reads. -/
structure CompositeKey where
  keyValue : String
  normalizedKey : String
  sheet : String
  rowNumber : ℕ
  deriving DecidableEq, Repr

/-- Python `"|".join(vs)`. -/
def pyJoin (sep : String) (vs : List String) : String := String.intercalate sep vs

/-- Python `s.lower()` (ASCII case fold, as the keys here are addresses and
cell text). -/
def pyLower (s : String) : String := String.mk (s.toList.map Char.toLower)

/-- The key-value normalization of `build_composite_keys` (`diff.py` line
123): lowercase, collapse double spaces once, strip. -/
def normalizeKey (s : String) : String :=
  pyStrip ((pyLower s).replace "  " " ")

/-- Group a sheet's cells by row, each row being a dict from column letter
to cell (`diff.py` lines 99-109, shared with lines 157-166):
`rows[row_num][col_letter] = cell`. -/
def groupRows (m : ModelAnalysis) (sheetName : String) :
    List (ℕ × List (String × CellInfo)) :=
  (m.cells.filter (fun p => p.2.sheet = sheetName)).foldl
    (fun rows p =>
      let rowNum := extractRowNumber p.2.address
      let colLetter := extractColumnLetter p.2.address
      let rowCells := (dictGet rows rowNum).getD []
      upsert rowNum (upsert colLetter p.2 rowCells) rows) []

/-- `DiffEngine.build_composite_keys` (`diff.py` lines 81-139): one
normalized composite key per row, last writer winning on duplicate keys. -/
def buildCompositeKeys (m : ModelAnalysis) (keyColumns : List String)
    (sheetName : String) : List (String × CompositeKey) :=
  (groupRows m sheetName).foldl (fun keys rc =>
    let keyValues := keyColumns.map (fun col =>
      match dictGet rc.2 col with
      | some cell => if cell.value.truthy then pyStrip cell.value.pyStr else ""
      | none => "")
    let keyValue := pyJoin "|" keyValues
    let normalizedKey := normalizeKey keyValue
    if normalizedKey = ""
        ∨ normalizedKey = String.mk (List.replicate (keyColumns.length - 1) '|') then
      keys
    else
      upsert normalizedKey
        { keyValue := keyValue, normalizedKey := normalizedKey,
          sheet := sheetName, rowNumber := rc.1 } keys) []

/-- `DiffEngine._match_rows_by_composite_key` (`diff.py` lines 233-260):
`old_row → new_row` for every composite key both models share. -/
def matchRowsByCompositeKey (oldModel newModel : ModelAnalysis)
    (keyColumns : List String) (sheetName : String) : List (ℕ × ℕ) :=
  let newKeys := buildCompositeKeys newModel keyColumns sheetName
  (buildCompositeKeys oldModel keyColumns sheetName).foldl (fun mapping kc =>
    match dictGet newKeys kc.1 with
    | some newComposite => upsert kc.2.rowNumber newComposite.rowNumber mapping
    | none => mapping) []

/-- Render the sheet argument the way an f-string renders it (`None` when
absent). -/
def sheetStr : Option String → String
  | some s => s
  | none => "None"

/-- Compare one old cell against the cell found at `newKey` (`diff.py`
lines 297-315 and 341-359): a formula difference is a logic change, else a
value difference is an input update. -/
def cellChange (oldCell newCell : CellInfo) (location : String) :
    Option (Bool × ChangeCategory) :=
  if oldCell.formula ≠ newCell.formula then
    some (true,
      { changeType := "logic_change", severity := "critical"
        oldValue := oldCell.formula, newValue := newCell.formula
        description := "Formula changed at " ++ location })
  else if oldCell.value ≠ newCell.value then
    some (false,
      { changeType := "input_update", severity := "normal"
        oldValue := some oldCell.value.pyStr, newValue := some newCell.value.pyStr
        description := "Value updated at " ++ location })
  else none

/-- `DiffEngine._simple_cell_comparison` (`diff.py` lines 319-361):
same-address comparison, optionally restricted to one sheet. -/
def simpleCellComparison (oldModel newModel : ModelAnalysis)
    (sheetName : Option String) : List ChangeCategory × List ChangeCategory :=
  oldModel.cells.foldl (fun acc p =>
    if (match sheetName with
        | some s => s ≠ "" ∧ p.2.sheet ≠ s
        | none => False : Bool) then acc
    else
      match dictGet newModel.cells p.1 with
      | some newCell =>
        match cellChange p.2 newCell p.1 with
        | some (true, ch) => (acc.1 ++ [ch], acc.2)
        | some (false, ch) => (acc.1, acc.2 ++ [ch])
        | none => acc
      | none => acc) ([], [])

/-- `DiffEngine._detect_changes` (`diff.py` lines 262-317): with a row
mapping, compare each matched old row against the same columns of the
mapped new row; without one, fall back to same-address comparison.  (The
source also computes `new_row_cells` but never reads it.) -/
def detectChanges (oldModel newModel : ModelAnalysis) (rowMapping : List (ℕ × ℕ))
    (sheetName : Option String) : List ChangeCategory × List ChangeCategory :=
  if rowMapping = [] then simpleCellComparison oldModel newModel sheetName
  else
    rowMapping.foldl (fun acc rows =>
      let oldRowCells := oldModel.cells.filter (fun p =>
        (match sheetName with
         | some s => p.2.sheet = s
         | none => False : Bool)
        ∧ extractRowNumber p.2.address = rows.1)
      oldRowCells.foldl (fun acc2 p =>
        let colLetter := extractColumnLetter p.2.address
        let newKey := sheetStr sheetName ++ "!" ++ colLetter ++ toString rows.2
        match dictGet newModel.cells newKey with
        | some newCell =>
          match cellChange p.2 newCell (newCell.sheet ++ "!" ++ newCell.address) with
          | some (true, ch) => (acc2.1 ++ [ch], acc2.2)
          | some (false, ch) => (acc2.1, acc2.2 ++ [ch])
          | none => acc2
        | none => acc2) acc) ([], [])

/-- `DiffEngine._risk_signature` (`diff.py` lines 390-392). -/
def riskSignature (r : RiskAlert) : String :=
  r.riskType ++ "|" ++ r.sheet ++ "|" ++ r.cell

/-- `DiffEngine._compare_risks` (`diff.py` lines 363-388): signatures only
in the old model are improvements, signatures only in the new model are
degradations.  (Python iterates a set difference in unspecified order;
modelled in first-insertion order.) -/
def compareRisks (oldRisks newRisks : List RiskAlert) :
    List RiskAlert × List RiskAlert :=
  let oldRiskSigs := oldRisks.foldl (fun d r => upsert (riskSignature r) r d) []
  let newRiskSigs := newRisks.foldl (fun d r => upsert (riskSignature r) r d) []
  let improvedSigs := (oldRiskSigs.map (·.1)).filter
    (fun s => ¬ (newRiskSigs.map (·.1)).contains s)
  let degradedSigs := (newRiskSigs.map (·.1)).filter
    (fun s => ¬ (oldRiskSigs.map (·.1)).contains s)
  (improvedSigs.filterMap (fun s => dictGet oldRiskSigs s),
   degradedSigs.filterMap (fun s => dictGet newRiskSigs s))

/-- `DiffEngine._detect_structural_changes` (`diff.py` lines 394-412). -/
def detectStructuralChanges (oldModel newModel : ModelAnalysis) : List String :=
  (newModel.sheets.filter (fun s => ¬ oldModel.sheets.contains s)).map
      (fun s => "➕ Sheet added: " ++ s)
    ++ (oldModel.sheets.filter (fun s => ¬ newModel.sheets.contains s)).map
      (fun s => "➖ Sheet removed: " ++ s)

/-- `DiffEngine.compare` (`diff.py` lines 29-79). -/
def compare (oldModel newModel : ModelAnalysis)
    (keyColumns : Option (List String)) (sheetName : Option String) : DiffResult :=
  let oldScore := oldModel.healthScore
  let newScore := newModel.healthScore
  let rowMapping :=
    match keyColumns, sheetName with
    | some kc, some sh =>
      if kc ≠ [] ∧ sh ≠ "" then matchRowsByCompositeKey oldModel newModel kc sh
      else []
    | _, _ => []
  let changes := detectChanges oldModel newModel rowMapping sheetName
  let riskChanges := compareRisks oldModel.risks newModel.risks
  { oldScore := oldScore, newScore := newScore, scoreDelta := newScore - oldScore
    logicChanges := changes.1, inputUpdates := changes.2
    improvedRisks := riskChanges.1, degradedRisks := riskChanges.2
    structuralChanges := detectStructuralChanges oldModel newModel
    rowMapping := rowMapping }

/-! ## Detector sequencing in `analyze` (`analyzer.py` lines 36-89)

`analyze` calls its nine detectors in a straight line —
`risks.extend(self._detect_…(…))` — with **no** `try`/`except` around any
call.  A detector that raises therefore propagates out of `analyze` at
once.  Exceptions are modelled with `Except`: each detector's outcome is
either its findings or the exception it raised. -/

/-- The detector-invocation sequence of `analyze` (`analyzer.py` lines
55-68): findings accumulate in order; a raised exception propagates
immediately, abandoning the accumulated findings and any later detector. -/
def runDetectorsStrict : List (Except String (List RiskAlert)) →
    Except String (List RiskAlert)
  | [] => .ok []
  | r :: rest =>
    match r with
    | .error e => .error e
    | .ok l =>
      match runDetectorsStrict rest with
      | .error e => .error e
      | .ok ls => .ok (l ++ ls)

/-- Modelled from the spec: §7's **DetectorFailure** semantics ("caught per
detector; that detector's findings are dropped, others still run") — the
behaviour the claim asserts, for comparison with the source's actual
`runDetectorsStrict`. -/
def runDetectorsIsolated (results : List (Except String (List RiskAlert))) :
    Except String (List RiskAlert) :=
  .ok (results.flatMap (fun r => match r with | .ok l => l | .error _ => []))

/-- The first exception among the detector outcomes. -/
def firstDetectorError : List (Except String (List RiskAlert)) → Option String
  | [] => none
  | .error e :: _ => some e
  | .ok _ :: rest => firstDetectorError rest

/-! ## Spec-side health-score formula (spec §4.5, claim C1) -/

/-- The spec's base penalty table: Critical 5, High 4, Medium 3, Low 1. -/
def specBasePenalty (severity : String) : ℚ :=
  if severity = "Critical" then 5
  else if severity = "High" then 4
  else if severity = "Medium" then 3
  else if severity = "Low" then 1
  else 0

/-- The spec's category multipliers: Fatal 1.0, Integrity 0.5,
Structural 0.1. -/
def specCategoryMultiplier : RiskCategory → ℚ
  | .fatalError => 1
  | .integrityRisk => 1 / 2
  | .structuralDebt => 1 / 10

/-- The spec's per-risk penalty for a classified risk. -/
def specPenalty (r : RiskAlert) : ℚ :=
  match r.category with
  | some c => specBasePenalty r.severity * specCategoryMultiplier c
  | none => 0

/-- The spec's health-score formula taken literally (§4.5 / claim C1):
100 minus the per-risk penalties, floored at 30, with **no** integer
truncation — exact rational arithmetic. -/
def specHealthScoreExact (risks : List RiskAlert) : ℚ :=
  max 30 (100 - (risks.map specPenalty).sum)

/-! ## Well-formedness of parsed models

The parser keys every cell by `f"{sheet_name}!{address}"` with openpyxl's
canonical coordinate (`parser.py` lines 226, 276-277), so keys are unique,
every key is `sheet ++ "!" ++ address`, and every address is a column
letter run followed by a row number with no leading zeros. -/

/-- The cell dict of a parsed model: unique keys, each the cell's own
`"Sheet!Address"`, with canonical addresses. -/
def modelWellFormed (m : ModelAnalysis) : Prop :=
  (m.cells.map (·.1)).Nodup ∧
  ∀ p ∈ m.cells, p.1 = p.2.sheet ++ "!" ++ p.2.address ∧
    extractColumnLetter p.2.address ++ toString (extractRowNumber p.2.address)
      = p.2.address

/-! ## The concrete three-cell circular model (claim C4) -/

/-- Three cells whose formulas form the single cycle
`A1 → C5 → B3 → A1` in the precedent→dependent edge direction. -/
def cellsC4 : List (String × CellInfo) :=
  [ ("S!A1", { sheet := "S", address := "A1", formula := some "=B3",
               dependencies := ["S!B3"] }),
    ("S!B3", { sheet := "S", address := "B3", formula := some "=C5",
               dependencies := ["S!C5"] }),
    ("S!C5", { sheet := "S", address := "C5", formula := some "=A1",
               dependencies := ["S!A1"] }) ]

/-- The parsed model for `cellsC4`. -/
def modelC4 : ModelAnalysis :=
  { filename := "cycle.xlsx", sheets := ["S"], cells := cellsC4, risks := [],
    healthScore := 100, graph := buildDependencyGraph cellsC4 }

/-- Two risks are direct neighbours: both the row gap and the column gap
of their cell coordinates are at most `maxGap`. -/
def withinGap (maxGap : ℕ) (a b : RiskAlert) : Prop :=
  max (extractRowCol a.cell).1 (extractRowCol b.cell).1
      - min (extractRowCol a.cell).1 (extractRowCol b.cell).1 ≤ maxGap
  ∧ max (extractRowCol a.cell).2 (extractRowCol b.cell).2
      - min (extractRowCol a.cell).2 (extractRowCol b.cell).2 ≤ maxGap

/-- A same-value hardcode alert at a cell, as the detector reports it
before compression. -/
def sameValueHardcodeAt (c : String) : RiskAlert :=
  { riskType := "Hidden Hardcode", severity := "High", sheet := "S", cell := c,
    description := "Formula contains hardcoded value(s): 5",
    details := { hardcodedValue := some "5" } }

/-- A single already-classified Integrity-category, Low-severity risk. -/
def integrityLowRisk : RiskAlert :=
  { riskType := "Inconsistent Value", severity := "Low", sheet := "S",
    cell := "B2", description := "d",
    category := some RiskCategory.integrityRisk }

/-- A classified Structural-category, High-severity risk (a
`classify_risk` fixpoint: merged cells always classify as structural
debt). -/
def structuralHighRisk : RiskAlert :=
  { riskType := "Merged Cell", severity := "High", sheet := "S",
    cell := "C3", description := "d",
    category := some RiskCategory.structuralDebt }

/-- Five classified Structural/High risks — the float-rounding
counterexample input. -/
def fiveStructuralHigh : List RiskAlert :=
  [structuralHighRisk, structuralHighRisk, structuralHighRisk,
   structuralHighRisk, structuralHighRisk]

/-- The circular-reference alert for `modelC4` after impact scoring and
compression: the detector's alert with its dominance (2 descendants)
recorded. -/
def circAlertC4 : RiskAlert :=
  { riskType := "Circular Reference", severity := "Critical", sheet := "S",
    cell := "A1",
    description := "Circular reference detected: A1 → C5 → B3",
    details := { impactCount := some 2, cycle := some ["S!A1", "S!C5", "S!B3"],
                 cycleLength := some 3 } }

/-! ## Graph reachability lemmas -/

/-- `addNew` only ever appends: the visited list is a prefix of the
result. -/
theorem addNew_isPrefix (ys : List String) : ∀ s, s <+: addNew s ys := by
  induction ys with
  | nil => intro s; exact ⟨[], by simp [addNew]⟩
  | cons y ys ih =>
    intro s
    show s <+: addNew (if y ∈ s then s else s ++ [y]) ys
    by_cases h : y ∈ s
    · simpa [h] using ih s
    · simp only [h, if_false]
      exact List.IsPrefix.trans ⟨[y], rfl⟩ (ih (s ++ [y]))

/-- Membership in `addNew`. -/
theorem mem_addNew (a : String) (ys : List String) :
    ∀ s, a ∈ addNew s ys ↔ a ∈ s ∨ a ∈ ys := by
  induction ys with
  | nil => intro s; simp [addNew]
  | cons y ys ih =>
    intro s
    show a ∈ addNew (if y ∈ s then s else s ++ [y]) ys ↔ _
    rw [ih]
    by_cases h : y ∈ s
    · simp only [h, if_true, List.mem_cons]
      constructor
      · rintro (hs | hy)
        · exact Or.inl hs
        · exact Or.inr (Or.inr hy)
      · rintro (hs | rfl | hy)
        · exact Or.inl hs
        · exact Or.inl h
        · exact Or.inr hy
    · simp only [h, if_false, List.mem_append, List.mem_singleton, List.mem_cons]
      tauto

/-- `addNew` preserves `Nodup`. -/
theorem nodup_addNew (ys : List String) :
    ∀ s, s.Nodup → (addNew s ys).Nodup := by
  induction ys with
  | nil => intro s hs; exact hs
  | cons y ys ih =>
    intro s hs
    show (addNew (if y ∈ s then s else s ++ [y]) ys).Nodup
    by_cases h : y ∈ s
    · simpa [h] using ih s hs
    · simp only [h, if_false]
      exact ih (s ++ [y]) (by simp [List.nodup_append, hs, h])

/-- Membership in the successor list. -/
theorem mem_successors (g : DiGraph) (x a : String) :
    a ∈ successors g x ↔ (x, a) ∈ g.edges := by
  simp only [successors, List.mem_map, List.mem_filter]
  constructor
  · rintro ⟨⟨e1, e2⟩, ⟨he, hx⟩, rfl⟩
    simp only [decide_eq_true_eq] at hx
    subst hx; exact he
  · intro h
    exact ⟨(x, a), ⟨h, by simp⟩, rfl⟩

/-- Membership in one saturation round. -/
theorem mem_stepList (g : DiGraph) (s : List String) (a : String) :
    a ∈ stepList g s ↔ a ∈ s ∨ ∃ x ∈ s, (x, a) ∈ g.edges := by
  simp only [stepList, mem_addNew, List.mem_flatMap, mem_successors]

/-- A saturation round only appends. -/
theorem stepList_isPrefix (g : DiGraph) (s : List String) : s <+: stepList g s :=
  addNew_isPrefix _ s

/-- A round that does not lengthen the list is the identity. -/
theorem stepList_eq_of_length (g : DiGraph) (s : List String)
    (h : (stepList g s).length = s.length) : stepList g s = s := by
  obtain ⟨t, ht⟩ := stepList_isPrefix g s
  have : t = [] := by
    have := congrArg List.length ht
    simp only [List.length_append] at this
    have : t.length = 0 := by omega
    exact List.length_eq_zero.mp this
  simp [← ht, this]

/-- A saturation round preserves `Nodup`. -/
theorem nodup_stepList (g : DiGraph) (s : List String) (hs : s.Nodup) :
    (stepList g s).Nodup := nodup_addNew _ s hs

/-- A saturation round stays inside the node set of a well-formed graph. -/
theorem stepList_subset_nodes (g : DiGraph) (hwf : graphWellFormed g)
    (s : List String) (hs : ∀ a ∈ s, a ∈ g.nodes) :
    ∀ a ∈ stepList g s, a ∈ g.nodes := by
  intro a ha
  rw [mem_stepList] at ha
  rcases ha with ha | ⟨x, _, hedge⟩
  · exact hs a ha
  · exact (hwf (x, a) hedge).2

/-- Everything visited after `n` rounds is reachable. -/
theorem reach_sound (g : DiGraph) (x : String) :
    ∀ (n : ℕ) (s : List String),
      (∀ z ∈ s, Relation.ReflTransGen (edgeRel g) x z) →
      ∀ y ∈ (stepList g)^[n] s, Relation.ReflTransGen (edgeRel g) x y := by
  intro n
  induction n with
  | zero => intro s hs y hy; exact hs y hy
  | succ n ih =>
    intro s hs y hy
    rw [Function.iterate_succ_apply] at hy
    refine ih (stepList g s) ?_ y hy
    intro z hz
    rw [mem_stepList] at hz
    rcases hz with hz | ⟨w, hw, hedge⟩
    · exact hs z hz
    · exact Relation.ReflTransGen.tail (hs w hw) hedge

/-- Iterating a saturation round keeps the start as a prefix. -/
theorem iterate_stepList_isPrefix (g : DiGraph) (s : List String) (n : ℕ) :
    s <+: (stepList g)^[n] s := by
  induction n with
  | zero => exact ⟨[], by simp⟩
  | succ n ih =>
    rw [Function.iterate_succ_apply']
    exact List.IsPrefix.trans ih (stepList_isPrefix g _)

/-- Iterated rounds preserve `Nodup` and stay in the node set. -/
theorem iterate_stepList_invariant (g : DiGraph) (hwf : graphWellFormed g)
    (s : List String) (hs : s.Nodup) (hsub : ∀ a ∈ s, a ∈ g.nodes) (n : ℕ) :
    ((stepList g)^[n] s).Nodup ∧ ∀ a ∈ (stepList g)^[n] s, a ∈ g.nodes := by
  induction n with
  | zero => exact ⟨hs, hsub⟩
  | succ n ih =>
    rw [Function.iterate_succ_apply']
    exact ⟨nodup_stepList g _ ih.1, stepList_subset_nodes g hwf _ ih.2⟩

/-- A `Nodup` list contained in another list is no longer than it. -/
theorem nodup_subset_length_le {s t : List String} (hs : s.Nodup)
    (hsub : ∀ a ∈ s, a ∈ t) : s.length ≤ t.length := by
  calc s.length = s.toFinset.card := (List.toFinset_card_of_nodup hs).symm
    _ ≤ t.toFinset.card := Finset.card_le_card (by
        intro a ha
        rw [List.mem_toFinset] at ha ⊢
        exact hsub a ha)
    _ ≤ t.length := t.toFinset_card_le

/-- After `g.nodes.length` rounds from a node, saturation has reached its
fixpoint. -/
theorem stepList_reachList_fix (g : DiGraph) (hwf : graphWellFormed g)
    (x : String) (hx : x ∈ g.nodes) :
    stepList g (reachList g x) = reachList g x := by
  set N := g.nodes.length with hN
  -- lengths along the iteration
  set L : ℕ → ℕ := fun n => ((stepList g)^[n] [x]).length with hL
  have hmono : ∀ n, L n ≤ L (n + 1) := by
    intro n
    have h := iterate_stepList_isPrefix g ((stepList g)^[n] [x]) 1
    simp only [Function.iterate_one] at h
    have := h.length_le
    simpa [hL, Function.iterate_succ_apply'] using this
  have hbound : ∀ n, L n ≤ N := by
    intro n
    have hinv := iterate_stepList_invariant g hwf [x] (by simp)
      (by simpa using hx) n
    exact nodup_subset_length_le hinv.1 hinv.2
  -- some round below N is already a fixpoint
  have hstab : ∃ n, n ≤ N ∧
      stepList g ((stepList g)^[n] [x]) = (stepList g)^[n] [x] := by
    by_contra hcon
    push_neg at hcon
    have hgrow : ∀ n, n ≤ N → n + 1 ≤ L n := by
      intro n
      induction n with
      | zero => intro _; simp [hL]
      | succ n ih =>
        intro hn
        have h1 : n + 1 ≤ L n := ih (Nat.le_of_succ_le hn)
        have hne := hcon n (Nat.le_of_succ_le hn)
        have : L n ≠ L (n + 1) := by
          intro heq
          exact hne (stepList_eq_of_length g _ (by
            simpa [hL, Function.iterate_succ_apply'] using heq.symm))
        have := hmono n
        omega
    have := hgrow N (Nat.le_refl N)
    have := hbound N
    omega
  obtain ⟨n, hn, hfix⟩ := hstab
  -- a fixpoint stays fixed, so round N agrees with round n
  have hsame : ∀ m, (stepList g)^[n + m] [x] = (stepList g)^[n] [x] := by
    intro m
    induction m with
    | zero => rfl
    | succ m ih =>
      have : n + (m + 1) = (n + m) + 1 := by omega
      rw [this, Function.iterate_succ_apply', ih, hfix]
  have hNn : (stepList g)^[N] [x] = (stepList g)^[n] [x] := by
    have := hsame (N - n)
    rwa [Nat.add_sub_cancel' hn] at this
  show stepList g ((stepList g)^[N] [x]) = (stepList g)^[N] [x]
  rw [hNn, hfix]

/-- Completeness: every reachable node is visited. -/
theorem reach_complete (g : DiGraph) (hwf : graphWellFormed g)
    (x : String) (hx : x ∈ g.nodes) (y : String)
    (h : Relation.ReflTransGen (edgeRel g) x y) : y ∈ reachList g x := by
  induction h with
  | refl =>
    exact (iterate_stepList_isPrefix g [x] g.nodes.length).subset (by simp)
  | tail hbc hedge ih =>
    have hfix := stepList_reachList_fix g hwf x hx
    rw [← hfix, mem_stepList]
    exact Or.inr ⟨_, ih, hedge⟩

/-- The saturation list is exactly the reflexive-transitive closure. -/
theorem mem_reachList_iff (g : DiGraph) (hwf : graphWellFormed g)
    (x : String) (hx : x ∈ g.nodes) (y : String) :
    y ∈ reachList g x ↔ Relation.ReflTransGen (edgeRel g) x y := by
  constructor
  · intro h
    refine reach_sound g x g.nodes.length [x] ?_ y h
    intro z hz
    rw [List.mem_singleton] at hz
    subst hz
    exact Relation.ReflTransGen.refl
  · exact reach_complete g hwf x hx y

/-! ## Shared dictionary lemmas -/

/-- On a dict with duplicate-free keys, lookup agrees with membership. -/
theorem dictGet_eq_some {κ α : Type} [DecidableEq κ] :
    ∀ (l : List (κ × α)), (l.map (·.1)).Nodup →
      ∀ k v, (dictGet l k = some v ↔ (k, v) ∈ l) := by
  intro l
  induction l with
  | nil => intro _ k v; simp [dictGet]
  | cons p rest ih =>
    obtain ⟨k1, v1⟩ := p
    intro hnd k v
    rw [List.map_cons, List.nodup_cons] at hnd
    by_cases hk : k1 = k
    · subst hk
      have hfind : List.find? (fun q => decide (q.1 = k1)) ((k1, v1) :: rest)
          = some (k1, v1) := List.find?_cons_of_pos _ (by simp)
      rw [dictGet, hfind]
      simp only [Option.map_some', Option.some_inj, List.mem_cons, Prod.mk.injEq,
        true_and]
      constructor
      · intro h; exact Or.inl h.symm
      · rintro (h | h)
        · exact h.symm
        · exact absurd (List.mem_map.mpr ⟨(k1, v), h, rfl⟩) hnd.1
    · have hfind : List.find? (fun q => decide (q.1 = k)) ((k1, v1) :: rest)
          = List.find? (fun q => decide (q.1 = k)) rest :=
        List.find?_cons_of_neg _ (by simpa using hk)
      rw [dictGet, hfind, ← dictGet, ih hnd.2 k v, List.mem_cons]
      constructor
      · exact Or.inr
      · rintro (h | h)
        · cases h; simp at hk
        · exact h

/-- Everything in an `upsert` is the written pair or was already there. -/
theorem mem_upsert {κ α : Type} [DecidableEq κ] (k : κ) (v : α) :
    ∀ (l : List (κ × α)) x, x ∈ upsert k v l → x = (k, v) ∨ x ∈ l := by
  intro l
  induction l with
  | nil => intro x hx; simpa [upsert] using hx
  | cons p rest ih =>
    intro x hx
    rw [upsert] at hx
    by_cases hk : p.1 = k
    · simp only [hk, if_true, List.mem_cons] at hx
      rcases hx with h | h
      · exact Or.inl h
      · exact Or.inr (List.mem_cons_of_mem _ h)
    · simp only [hk, if_false, List.mem_cons] at hx
      rcases hx with h | h
      · exact Or.inr (by simp [h])
      · rcases ih x h with h' | h'
        · exact Or.inl h'
        · exact Or.inr (List.mem_cons_of_mem _ h')

/-- `upsert` preserves duplicate-free keys. -/
theorem upsert_keys_nodup {κ α : Type} [DecidableEq κ] (k : κ) (v : α) :
    ∀ (l : List (κ × α)), (l.map (·.1)).Nodup →
      ((upsert k v l).map (·.1)).Nodup := by
  intro l
  induction l with
  | nil => intro _; simp [upsert]
  | cons p rest ih =>
    intro hnd
    rw [List.map_cons, List.nodup_cons] at hnd
    rw [upsert]
    by_cases hk : p.1 = k
    · subst hk
      simp only [if_true]
      rw [List.map_cons, List.nodup_cons]
      exact hnd
    · simp only [hk, if_false]
      rw [List.map_cons, List.nodup_cons]
      refine ⟨?_, ih hnd.2⟩
      intro hmem
      rcases List.mem_map.mp hmem with ⟨x, hx, hx1⟩
      rcases mem_upsert k v rest x hx with rfl | hx'
      · exact hk hx1.symm
      · exact hnd.1 (List.mem_map.mpr ⟨x, hx', hx1⟩)

/-! ## Claim theorems -/

/-- C2.  Hidden-hardcode detection is exhaustive over a formula's
numeric-literal operands: on a cell holding `=100630*0.02*5/12` with the
allow-list containing 12, the detector reports exactly the literals
100630, 0.02 and 5 — one alert whose value list is precisely
`["100630", "0.02", "5"]` — and nothing else. -/
theorem hardcode_detection_exhaustive_on_c2_formula :
    detectHiddenHardcodes
      [("Sheet1!B2", { sheet := "Sheet1", address := "B2",
                       formula := some "=100630*0.02*5/12" })] [12]
    = [{ riskType := "Hidden Hardcode", severity := "High", sheet := "Sheet1",
         cell := "B2",
         description := "Formula contains hardcoded value(s): 100630, 0.02, 5",
         details := { formula := some "=100630*0.02*5/12",
                      hardcodedValue := some "100630",
                      allHardcodedValues := some ["100630", "0.02", "5"] } }] := by
  decide

/-- C6 (counterexample).  A failing first detector makes the straight-line
detector sequence of `analyze` fail as a whole: the healthy second
detector's findings are lost, unlike the per-detector isolation the claim
asserts. -/
theorem detector_failure_aborts_analysis :
    runDetectorsStrict [Except.error "boom", Except.ok [default]]
        = Except.error "boom"
    ∧ runDetectorsIsolated [Except.error "boom", Except.ok [default]]
        = Except.ok [(default : RiskAlert)] := by
  exact ⟨rfl, rfl⟩

/-- C6 (amended).  The detector sequence of `analyze` has no per-detector
handler: it returns the findings of all detectors only when every detector
succeeds, and otherwise propagates the first detector's exception,
aborting the analysis. -/
theorem detector_sequence_propagates_first_error :
    ∀ results, runDetectorsStrict results =
      match firstDetectorError results with
      | some e => Except.error e
      | none => runDetectorsIsolated results := by
  intro results
  induction results with
  | nil => rfl
  | cons r rest ih =>
    cases r with
    | error e => rfl
    | ok l =>
      show (match runDetectorsStrict rest with
        | .error e => Except.error e
        | .ok ls => Except.ok (l ++ ls)) = _
      rw [ih]
      cases h : firstDetectorError rest with
      | some e => simp [firstDetectorError, h]
      | none => simp [firstDetectorError, h, runDetectorsIsolated]

/-- C10.  The query helpers are total at the interface: for an address
that is not a node of the dependency graph, both `get_precedents` and
`get_dependents` return the empty list. -/
theorem query_helpers_total_on_unknown_address :
    ∀ (g : DiGraph) (x : String), x ∉ g.nodes →
      getPrecedents g x = [] ∧ getDependents g x = [] := by
  intro g x hx
  constructor
  · simp [getPrecedents, hx]
  · simp [getDependents, hx]

/-- C10 witness: a concrete address absent from the concrete model's graph
gets empty answers from both helpers. -/
theorem query_helpers_total_witness :
    "Z!Z9" ∉ (buildDependencyGraph cellsC4).nodes
    ∧ getPrecedents (buildDependencyGraph cellsC4) "Z!Z9" = []
    ∧ getDependents (buildDependencyGraph cellsC4) "Z!Z9" = [] := by
  have h : "Z!Z9" ∉ (buildDependencyGraph cellsC4).nodes := by decide
  have := query_helpers_total_on_unknown_address (buildDependencyGraph cellsC4) "Z!Z9" h
  exact ⟨h, this.1, this.2⟩

/-- C5.  `get_precedents` returns exactly the direct predecessors of a node
(an in-edge per member), while `get_dependents` returns exactly the
transitive descendants (the nodes reachable by at least one edge, the
source excluded) — the two queries are intentionally asymmetric.  The
statement holds for every graph node, so in particular for virtually
filled merged-cell nodes, which the parser adds as ordinary nodes. -/
theorem precedents_direct_dependents_transitive :
    ∀ (g : DiGraph), graphWellFormed g → ∀ x y,
      (y ∈ getPrecedents g x ↔ x ∈ g.nodes ∧ (y, x) ∈ g.edges) ∧
      (y ∈ getDependents g x ↔
        x ∈ g.nodes ∧ y ≠ x ∧ Relation.TransGen (edgeRel g) x y) := by
  intro g hwf x y
  constructor
  · by_cases hx : x ∈ g.nodes
    · simp only [getPrecedents, hx, if_true, List.mem_map, List.mem_filter,
        decide_eq_true_eq, true_iff, hx, true_and]
      constructor
      · rintro ⟨⟨e1, e2⟩, ⟨he, h2⟩, rfl⟩
        subst h2; exact he
      · intro h; exact ⟨(y, x), ⟨h, rfl⟩, rfl⟩
    · simp [getPrecedents, hx]
  · by_cases hx : x ∈ g.nodes
    · simp only [getDependents, hx, if_true, descendantsOf, List.mem_filter,
        decide_eq_true_eq, true_and]
      rw [mem_reachList_iff g hwf x hx y,
        Relation.reflTransGen_iff_eq_or_transGen]
      constructor
      · rintro ⟨h1 | h1, h2⟩
        · exact absurd h1 h2
        · exact ⟨h2, h1⟩
      · rintro ⟨h2, h1⟩
        exact ⟨Or.inr h1, h2⟩
    · simp [getDependents, hx]

/-- C5 witness: the concrete cyclic model — `S!A1`'s precedent list is
exactly its one in-neighbour `S!B3`, and `S!C5` is a transitive descendant
of `S!A1`. -/
theorem precedents_dependents_witness :
    graphWellFormed (buildDependencyGraph cellsC4)
    ∧ ("S!B3" ∈ getPrecedents (buildDependencyGraph cellsC4) "S!A1" ↔
        "S!A1" ∈ (buildDependencyGraph cellsC4).nodes
        ∧ ("S!B3", "S!A1") ∈ (buildDependencyGraph cellsC4).edges)
    ∧ ("S!C5" ∈ getDependents (buildDependencyGraph cellsC4) "S!A1" ↔
        "S!A1" ∈ (buildDependencyGraph cellsC4).nodes ∧ "S!C5" ≠ "S!A1"
        ∧ Relation.TransGen (edgeRel (buildDependencyGraph cellsC4)) "S!A1" "S!C5") := by
  have hwf : graphWellFormed (buildDependencyGraph cellsC4) := by
    have : ∀ e ∈ (buildDependencyGraph cellsC4).edges,
        e.1 ∈ (buildDependencyGraph cellsC4).nodes
        ∧ e.2 ∈ (buildDependencyGraph cellsC4).nodes := by decide
    exact this
  have h := precedents_direct_dependents_transitive (buildDependencyGraph cellsC4)
    hwf "S!A1"
  exact ⟨hwf, (h "S!B3").1, (h "S!C5").2⟩

/-- Membership in `insertEdge`. -/
theorem mem_insertEdge (es : List (String × String)) (e x : String × String) :
    x ∈ insertEdge es e ↔ x ∈ es ∨ x = e := by
  rw [insertEdge]
  by_cases h : e ∈ es
  · simp only [h, if_true]
    constructor
    · exact Or.inl
    · rintro (hx | rfl)
      · exact hx
      · exact h
  · simp [h]

/-- Membership in the per-cell dependency fold of `buildEdges`. -/
theorem mem_depFold (keys : List String) (k : String) :
    ∀ (deps : List String) (acc : List (String × String)) (x : String × String),
      x ∈ deps.foldl (fun acc2 dep =>
          if keys.contains dep then insertEdge acc2 (dep, k) else acc2) acc
      ↔ x ∈ acc ∨ ∃ dep ∈ deps, keys.contains dep ∧ x = (dep, k) := by
  intro deps
  induction deps with
  | nil => intro acc x; simp
  | cons d rest ih =>
    intro acc x
    rw [List.foldl_cons]
    by_cases hd : keys.contains d
    · simp only [hd, if_true]
      rw [ih, mem_insertEdge]
      constructor
      · rintro ((hx | rfl) | ⟨dep, hmem, hk, rfl⟩)
        · exact Or.inl hx
        · exact Or.inr ⟨d, List.mem_cons_self _ _, hd, rfl⟩
        · exact Or.inr ⟨dep, List.mem_cons_of_mem _ hmem, hk, rfl⟩
      · rintro (hx | ⟨dep, hmem, hk, rfl⟩)
        · exact Or.inl (Or.inl hx)
        · rcases List.mem_cons.mp hmem with rfl | hmem'
          · exact Or.inl (Or.inr rfl)
          · exact Or.inr ⟨dep, hmem', hk, rfl⟩
    · simp only [hd, if_false]
      rw [ih]
      constructor
      · rintro (hx | ⟨dep, hmem, hk, rfl⟩)
        · exact Or.inl hx
        · exact Or.inr ⟨dep, List.mem_cons_of_mem _ hmem, hk, rfl⟩
      · rintro (hx | ⟨dep, hmem, hk, rfl⟩)
        · exact Or.inl hx
        · rcases List.mem_cons.mp hmem with rfl | hmem'
          · exact absurd hk (by simpa using hd)
          · exact Or.inr ⟨dep, hmem', hk, rfl⟩

/-- Membership in `buildEdges`: an edge arises exactly from a non-dynamic
cell and one of its dependencies that is itself a parsed key. -/
theorem mem_buildEdges (cells : List (String × CellInfo)) (x : String × String) :
    x ∈ buildEdges cells ↔
      ∃ p ∈ cells, ¬p.2.isDynamic
        ∧ ∃ dep ∈ p.2.dependencies, (cells.map (·.1)).contains dep
        ∧ x = (dep, p.1) := by
  have main : ∀ (l : List (String × CellInfo)) (acc : List (String × String)),
      x ∈ l.foldl (fun acc p =>
        if p.2.isDynamic then acc
        else p.2.dependencies.foldl (fun acc2 dep =>
          if (cells.map (·.1)).contains dep then insertEdge acc2 (dep, p.1)
          else acc2) acc) acc
      ↔ x ∈ acc ∨ ∃ p ∈ l, ¬p.2.isDynamic
          ∧ ∃ dep ∈ p.2.dependencies, (cells.map (·.1)).contains dep
          ∧ x = (dep, p.1) := by
    intro l
    induction l with
    | nil => intro acc; simp
    | cons c rest ih =>
      intro acc
      rw [List.foldl_cons]
      by_cases hdyn : c.2.isDynamic
      · rw [if_pos hdyn, ih]
        constructor
        · rintro (hx | ⟨p, hmem, hp⟩)
          · exact Or.inl hx
          · exact Or.inr ⟨p, List.mem_cons_of_mem _ hmem, hp⟩
        · rintro (hx | ⟨p, hmem, hnd, hp⟩)
          · exact Or.inl hx
          · rcases List.mem_cons.mp hmem with rfl | hmem'
            · exact absurd hdyn hnd
            · exact Or.inr ⟨p, hmem', hnd, hp⟩
      · rw [if_neg hdyn, ih, mem_depFold]
        constructor
        · rintro ((hx | ⟨dep, hdep, hk, rfl⟩) | ⟨p, hmem, hp⟩)
          · exact Or.inl hx
          · exact Or.inr ⟨c, List.mem_cons_self _ _, hdyn, dep, hdep, hk, rfl⟩
          · exact Or.inr ⟨p, List.mem_cons_of_mem _ hmem, hp⟩
        · rintro (hx | ⟨p, hmem, hnd, dep, hdep, hk, hx⟩)
          · exact Or.inl (Or.inl hx)
          · rcases List.mem_cons.mp hmem with rfl | hmem'
            · exact Or.inl (Or.inr ⟨dep, hdep, hk, hx⟩)
            · exact Or.inr ⟨p, hmem', hnd, dep, hdep, hk, hx⟩
  have := main cells []
  simpa [buildEdges] using this

/-- C9.  A dependency edge `(u, v)` exists iff both `u` and `v` are parsed
cell keys, the cell stored at `v` is non-dynamic and holds a (nonempty)
formula, and `u` appears in that cell's dependency list; in particular a
dangling reference adds no edge.  The hypotheses are the parser's
invariants: unique cell keys, and dependencies only on formula cells
(`parser.py` lines 256-261 fill `dependencies` only under `if formula:`). -/
theorem dependency_edge_iff :
    ∀ (cells : List (String × CellInfo)),
      (cells.map (·.1)).Nodup →
      (∀ p ∈ cells, p.2.dependencies ≠ [] → ∃ f, p.2.formula = some f ∧ f ≠ "") →
      ∀ u v, ((u, v) ∈ (buildDependencyGraph cells).edges ↔
        (u ∈ (buildDependencyGraph cells).nodes
          ∧ v ∈ (buildDependencyGraph cells).nodes
          ∧ ∃ c, dictGet cells v = some c ∧ c.isDynamic = false
              ∧ u ∈ c.dependencies ∧ ∃ f, c.formula = some f ∧ f ≠ "")) := by
  intro cells hnd hform u v
  show (u, v) ∈ buildEdges cells ↔ _
  rw [mem_buildEdges]
  constructor
  · rintro ⟨p, hmem, hnd', dep, hdep, hk, heq⟩
    obtain ⟨h1, h2⟩ := Prod.mk.injEq .. ▸ heq
    subst h1; subst h2
    refine ⟨List.elem_iff.mp hk, List.mem_map.mpr ⟨p, hmem, rfl⟩, p.2, ?_, ?_, hdep, ?_⟩
    · exact (dictGet_eq_some cells hnd p.1 p.2).mpr (by simpa using hmem)
    · simpa using hnd'
    · exact hform p hmem (by intro h; rw [h] at hdep; exact List.not_mem_nil _ hdep)
  · rintro ⟨hu, hv, c, hget, hdyn, hdep, -⟩
    have hmem := (dictGet_eq_some cells hnd v c).mp hget
    exact ⟨(v, c), hmem, by simp [hdyn], u, hdep, List.elem_iff.mpr hu, rfl⟩

/-- C9 witness: in the concrete model, the edge `("S!B3", "S!A1")` is
characterized exactly as the invariant states. -/
theorem dependency_edge_iff_witness :
    (cellsC4.map (·.1)).Nodup
    ∧ (("S!B3", "S!A1") ∈ (buildDependencyGraph cellsC4).edges ↔
        ("S!B3" ∈ (buildDependencyGraph cellsC4).nodes
          ∧ "S!A1" ∈ (buildDependencyGraph cellsC4).nodes
          ∧ ∃ c, dictGet cellsC4 "S!A1" = some c ∧ c.isDynamic = false
              ∧ "S!B3" ∈ c.dependencies ∧ ∃ f, c.formula = some f ∧ f ≠ "")) := by
  have h1 : (cellsC4.map (·.1)).Nodup := by decide
  have h2 : ∀ p ∈ cellsC4, p.2.dependencies ≠ [] →
      ∃ f, p.2.formula = some f ∧ f ≠ "" := by decide
  exact ⟨h1, dependency_edge_iff cellsC4 h1 h2 "S!B3" "S!A1"⟩

/-- `valEqRat` decides equality with `decimalToRat`. -/
theorem valEqRat_iff (p : ℕ × ℕ) (q : ℚ) :
    valEqRat p q = true ↔ decimalToRat p = q := by
  have h10 : ((10 : ℚ) ^ p.2) ≠ 0 := by positivity
  have hden : ((q.den : ℚ)) ≠ 0 := by exact_mod_cast q.den_ne_zero
  rw [valEqRat, decide_eq_true_eq, decimalToRat, div_eq_iff h10]
  constructor
  · intro h
    have : ((p.1 : ℚ)) * q.den = (q.num : ℚ) * 10 ^ p.2 := by
      exact_mod_cast congrArg (fun z : ℤ => (z : ℚ)) h
    field_simp at this ⊢
    rw [← Rat.num_div_den q, div_mul_eq_mul_div, mul_comm]
    rw [eq_div_iff hden]
    linear_combination this
  · intro h
    have : ((p.1 : ℚ)) * q.den = (q.num : ℚ) * 10 ^ p.2 := by
      rw [← Rat.num_div_den q] at h
      field_simp at h
      linear_combination h
    exact_mod_cast this

/-- `any (valEqRat p)` decides membership of the parsed value. -/
theorem anyValEq_iff (l : List ℚ) (p : ℕ × ℕ) :
    l.any (valEqRat p) = true ↔ decimalToRat p ∈ l := by
  rw [List.any_eq_true]
  constructor
  · rintro ⟨q, hq, hval⟩
    rw [valEqRat_iff] at hval
    rwa [hval]
  · intro hm
    exact ⟨decimalToRat p, hm, (valEqRat_iff _ _).mpr rfl⟩

/-- Every reported literal parses, and its value is not a user-configured
constant. -/
theorem hardcodedValuesOf_mem (fs : String) (allowed : List ℚ) (s : String)
    (h : s ∈ hardcodedValuesOf fs allowed) :
    ∃ p, parseDecimal s = some p ∧ allowed.any (valEqRat p) = false := by
  rw [hardcodedValuesOf] at h
  obtain ⟨t, -, ht⟩ := List.mem_filterMap.mp h
  cases t with
  | number s' =>
    cases hp : parseDecimal s' with
    | none =>
      simp only [hp] at ht
      exact Option.noConfusion ht
    | some p =>
      simp only [hp] at ht
      by_cases ha : allowed.any (valEqRat p)
      · simp [ha] at ht
      · simp only [Bool.not_eq_true] at ha
        simp only [ha, Bool.false_eq_true, if_false, Option.some_inj] at ht
        subst ht
        exact ⟨p, hp, ha⟩
  | cellRef s' => simp at ht
  | other c => simp at ht

/-- C7.  Every Hidden Hardcode alert carries a reported literal
(`details["hardcoded_value"]`); the alert's severity is Low when that
literal's value lies in the small allow-list {0, 1, 12} or among the
user-configured constants (the latter case is vacuous, since
user-configured constants are excluded from reporting altogether), and
High otherwise. -/
theorem hardcode_alert_severity_tiering :
    ∀ (cells : List (String × CellInfo)) (allowed : List ℚ) (alert : RiskAlert),
      alert ∈ detectHiddenHardcodes cells allowed →
      ∃ v p, alert.details.hardcodedValue = some v ∧ parseDecimal v = some p ∧
        ((decimalToRat p ∈ commonConstants ∨ decimalToRat p ∈ allowed) →
          alert.severity = "Low") ∧
        (¬(decimalToRat p ∈ commonConstants ∨ decimalToRat p ∈ allowed) →
          alert.severity = "High") := by
  intro cells allowed alert h
  obtain ⟨⟨k, ci⟩, -, hf⟩ := List.mem_filterMap.mp h
  rcases hform : ci.formula with - | f
  · simp only [hform] at hf
    exact Option.noConfusion hf
  · simp only [hform] at hf
    by_cases hfe : f = ""
    · simp only [hfe, if_true, reduceIte] at hf
      exact Option.noConfusion hf
    · simp only [hfe, if_false, reduceIte] at hf
      simp only [hardcodeAlertFor] at hf
      rcases hvals : hardcodedValuesOf
          (if pyStartsWith "=" f then f else "=" ++ f) allowed with - | ⟨v0, rest⟩
      · rw [hvals] at hf; simp at hf
      · rw [hvals] at hf
        simp only [Option.some_inj] at hf
        have hv0 : v0 ∈ hardcodedValuesOf
            (if pyStartsWith "=" f then f else "=" ++ f) allowed := by
          rw [hvals]; exact List.mem_cons_self _ _
        obtain ⟨p, hp, hall⟩ := hardcodedValuesOf_mem _ _ _ hv0
        refine ⟨v0, p, ?_, hp, ?_, ?_⟩
        · rw [← hf]
        · intro hcase
          have hcommon : decimalToRat p ∈ commonConstants := by
            rcases hcase with hc | hc
            · exact hc
            · exact absurd ((anyValEq_iff allowed p).mpr hc) (by simp [hall])
          rw [← hf]
          simp only [hp, (anyValEq_iff commonConstants p).mpr hcommon]
          simp
        · intro hcase
          push_neg at hcase
          have hcommon : commonConstants.any (valEqRat p) = false := by
            rcases hany : commonConstants.any (valEqRat p) with - | -
            · rfl
            · exact absurd ((anyValEq_iff commonConstants p).mp hany) hcase.1
          rw [← hf]
          simp only [hp, hcommon]
          rfl

/-- C7 witness: on the concrete `=100630*0.02*5/12` cell, the theorem
applies, and the reported literal 100630 indeed makes the alert High. -/
theorem hardcode_alert_severity_witness :
    (detectHiddenHardcodes
        [("Sheet1!B2", { sheet := "Sheet1", address := "B2",
                         formula := some "=100630*0.02*5/12" })] [12]).head?
      = some { riskType := "Hidden Hardcode", severity := "High",
               sheet := "Sheet1", cell := "B2",
               description := "Formula contains hardcoded value(s): 100630, 0.02, 5",
               details := { formula := some "=100630*0.02*5/12",
                            hardcodedValue := some "100630",
                            allHardcodedValues := some ["100630", "0.02", "5"] } }
    ∧ ∃ v p,
        ({ riskType := "Hidden Hardcode", severity := "High",
           sheet := "Sheet1", cell := "B2",
           description := "Formula contains hardcoded value(s): 100630, 0.02, 5",
           details := { formula := some "=100630*0.02*5/12",
                        hardcodedValue := some "100630",
                        allHardcodedValues := some ["100630", "0.02", "5"] }
           : RiskAlert }).details.hardcodedValue = some v
        ∧ parseDecimal v = some p
        ∧ ((decimalToRat p ∈ commonConstants ∨ decimalToRat p ∈ ([12] : List ℚ)) →
            ({ severity := "High", riskType := "Hidden Hardcode",
               sheet := "Sheet1", cell := "B2",
               description := "Formula contains hardcoded value(s): 100630, 0.02, 5",
               details := { formula := some "=100630*0.02*5/12",
                            hardcodedValue := some "100630",
                            allHardcodedValues := some ["100630", "0.02", "5"] }
               : RiskAlert }).severity = "Low")
        ∧ (¬(decimalToRat p ∈ commonConstants ∨ decimalToRat p ∈ ([12] : List ℚ)) →
            ({ severity := "High", riskType := "Hidden Hardcode",
               sheet := "Sheet1", cell := "B2",
               description := "Formula contains hardcoded value(s): 100630, 0.02, 5",
               details := { formula := some "=100630*0.02*5/12",
                            hardcodedValue := some "100630",
                            allHardcodedValues := some ["100630", "0.02", "5"] }
               : RiskAlert }).severity = "High") := by
  constructor
  · decide
  · exact hardcode_alert_severity_tiering
      [("Sheet1!B2", { sheet := "Sheet1", address := "B2",
                       formula := some "=100630*0.02*5/12" })] [12] _ (by decide)

/-- Every cluster built by the splitting loop keeps consecutive members
within the gap, given that the cluster built so far does and `prev` is the
coordinates of its last member. -/
theorem splitGo_chain (maxGap : ℕ) :
    ∀ (rest currentCluster : List RiskAlert) (prev : ℕ × ℕ),
      currentCluster ≠ [] →
      (∀ lr, currentCluster.getLast? = some lr → prev = extractRowCol lr.cell) →
      currentCluster.Chain' (withinGap maxGap) →
      ∀ cluster ∈ splitGo maxGap rest currentCluster prev,
        cluster.Chain' (withinGap maxGap) := by
  intro rest
  induction rest with
  | nil =>
    intro current prev _ _ hchain cluster hc
    rw [splitGo] at hc
    rw [List.mem_singleton] at hc
    subst hc
    exact hchain
  | cons r rest ih =>
    intro current prev hne hlast hchain cluster hc
    rw [splitGo] at hc
    by_cases hcond :
        max (extractRowCol r.cell).1 prev.1 - min (extractRowCol r.cell).1 prev.1
          ≤ maxGap
        ∧ max (extractRowCol r.cell).2 prev.2 - min (extractRowCol r.cell).2 prev.2
          ≤ maxGap
    · rw [if_pos hcond] at hc
      refine ih (current ++ [r]) (extractRowCol r.cell) (by simp) ?_ ?_ cluster hc
      · intro lr hlr
        rw [List.getLast?_concat] at hlr
        cases hlr
        rfl
      · rw [List.chain'_append]
        refine ⟨hchain, List.chain'_singleton r, ?_⟩
        intro x hx y hy
        rw [List.head?_cons, Option.mem_some_iff] at hy
        subst hy
        have hprev := hlast x (by simpa using hx)
        constructor
        · rw [Nat.max_comm, Nat.min_comm, ← hprev]
          exact hcond.1
        · rw [Nat.max_comm, Nat.min_comm, ← hprev]
          exact hcond.2
    · rw [if_neg hcond] at hc
      rw [List.mem_cons] at hc
      rcases hc with rfl | hc
      · exact hchain
      · refine ih [r] (extractRowCol r.cell) (by simp) ?_ (List.chain'_singleton r)
          cluster hc
        intro lr hlr
        simp only [List.getLast?_singleton, Option.some_inj] at hlr
        subst hlr
        rfl

/-- C3.  Risk compression never merges same-value risks whose consecutive
members (after sorting by row) are farther apart than the gap in either
dimension: every cluster the splitter emits is a chain of direct
neighbours; concretely, same-value hardcodes at F4 and F8 (row gap 4)
stay two alerts, at F4/F5/F6 they compress to the single alert `F4:F6`,
and at F4 and BN4 (row gap 0 but column gap 60) they stay two alerts. -/
theorem compression_never_merges_distant_risks :
    (∀ (maxGap : ℕ) (sortedRisks : List RiskAlert),
      ∀ cluster ∈ splitBySpatialProximity sortedRisks maxGap,
        cluster.Chain' (withinGap maxGap))
    ∧ (compressRisks [sameValueHardcodeAt "F4", sameValueHardcodeAt "F8"]).map
        (·.cell) = ["F4", "F8"]
    ∧ (compressRisks [sameValueHardcodeAt "F4", sameValueHardcodeAt "F5",
        sameValueHardcodeAt "F6"]).map (·.cell) = ["F4:F6"]
    ∧ (compressRisks [sameValueHardcodeAt "F4", sameValueHardcodeAt "BN4"]).map
        (·.cell) = ["F4", "BN4"] := by
  refine ⟨?_, by decide, by decide, by decide⟩
  intro maxGap sortedRisks cluster hc
  cases sortedRisks with
  | nil => simp [splitBySpatialProximity] at hc
  | cons r rest =>
    rw [splitBySpatialProximity] at hc
    exact splitGo_chain maxGap rest [r] (extractRowCol r.cell) (by simp)
      (by intro lr hlr
          simp only [List.getLast?_singleton, Option.some_inj] at hlr
          subst hlr
          rfl)
      (List.chain'_singleton r) cluster hc

/-- C3 witness: the theorem applied to the concrete F4/F5 pair — they land
in one cluster, which is a chain of direct neighbours. -/
theorem compression_cluster_chain_witness :
    [sameValueHardcodeAt "F4", sameValueHardcodeAt "F5"]
      ∈ splitBySpatialProximity
          [sameValueHardcodeAt "F4", sameValueHardcodeAt "F5"] 1
    ∧ ([sameValueHardcodeAt "F4", sameValueHardcodeAt "F5"]).Chain' (withinGap 1) := by
  have hmem : [sameValueHardcodeAt "F4", sameValueHardcodeAt "F5"]
      ∈ splitBySpatialProximity
          [sameValueHardcodeAt "F4", sameValueHardcodeAt "F5"] 1 := by decide
  exact ⟨hmem, compression_never_merges_distant_risks.1 1
    [sameValueHardcodeAt "F4", sameValueHardcodeAt "F5"] _ hmem⟩

/-- Python truncation toward zero is monotone. -/
theorem pyInt_mono {q q' : ℚ} (h : q ≤ q') : pyInt q ≤ pyInt q' := by
  rw [pyInt, pyInt]
  by_cases h1 : q < 0
  · by_cases h2 : q' < 0
    · simp only [h1, h2, if_true]
      exact Int.ceil_le_ceil h
    · simp only [h1, h2, if_true, if_false]
      calc ⌈q⌉ ≤ 0 := Int.ceil_le.mpr (by exact_mod_cast h1.le)
        _ ≤ ⌊q'⌋ := Int.floor_nonneg.mpr (not_lt.mp h2)
  · have h2 : ¬ q' < 0 := fun hc => h1 (lt_of_le_of_lt h hc)
    simp only [h1, h2, if_false]
    exact Int.floor_le_floor h

/-! ## Binary64 rounding lemmas -/

theorem log2Go_correct : ∀ (fuel n : ℕ), 0 < n → n ≤ fuel →
    2 ^ log2Go fuel n ≤ n ∧ n < 2 ^ (log2Go fuel n + 1) := by
  intro fuel
  induction fuel with
  | zero => intro n h1 h2; omega
  | succ fuel ih =>
    intro n h1 h2
    show 2 ^ (if 2 ≤ n then log2Go fuel (n / 2) + 1 else 0) ≤ n
      ∧ n < 2 ^ ((if 2 ≤ n then log2Go fuel (n / 2) + 1 else 0) + 1)
    by_cases h : 2 ≤ n
    · rw [if_pos h]
      have hd1 : 0 < n / 2 := Nat.div_pos h (by norm_num)
      have hd2 : n / 2 ≤ fuel := by
        have := Nat.div_lt_self h1 (by norm_num : 1 < 2)
        omega
      obtain ⟨hl, hu⟩ := ih (n / 2) hd1 hd2
      rw [pow_succ, pow_succ, pow_succ] at *
      omega
    · rw [if_neg h]
      have hn : n = 1 := by omega
      subst hn
      norm_num

theorem log2N_correct (n : ℕ) (h : 0 < n) :
    2 ^ log2N n ≤ n ∧ n < 2 ^ (log2N n + 1) :=
  log2Go_correct n n h le_rfl

theorem roundMantissa_cases (a b : ℕ) (hb : 0 < b) :
    roundMantissa a b = a / b ∨ (roundMantissa a b = a / b + 1 ∧ ¬ b ∣ a) := by
  rw [roundMantissa]
  by_cases h1 : 2 * (a % b) < b
  · left; rw [if_pos h1]
  · rw [if_neg h1]
    by_cases h2 : b < 2 * (a % b)
    · right
      refine ⟨by rw [if_pos h2], ?_⟩
      intro hdvd
      rw [Nat.dvd_iff_mod_eq_zero] at hdvd
      omega
    · rw [if_neg h2]
      have hmod : a % b ≠ 0 := by omega
      by_cases h3 : a / b % 2 = 0
      · left; rw [if_pos h3]
      · right
        refine ⟨by rw [if_neg h3], ?_⟩
        intro hdvd
        rw [Nat.dvd_iff_mod_eq_zero] at hdvd
        omega

theorem roundPQ0_spec (p q : ℕ) (hp : 0 < p) (hq : 0 < q) :
    ∃ A B : ℕ, 0 < B ∧
      (A : ℚ) * (2:ℚ) ^ (roundPQ0 p q).2 * q = (p : ℚ) * B ∧
      (roundPQ0 p q).1 = roundMantissa A B ∧
      2 ^ 52 * B ≤ A ∧ A < 2 ^ 53 * B := by
  obtain ⟨hpl, hpu⟩ := log2N_correct p hp
  obtain ⟨hql, hqu⟩ := log2N_correct q hq
  have he2 : (roundPQ0 p q).2 = cOf p q - 52 := rfl
  by_cases hb0 : 0 ≤ cOf p q - 52
  · have hm1 : (roundPQ0 p q).1
        = roundMantissa p (q * 2 ^ (cOf p q - 52).toNat) := by
      simp only [roundPQ0]
      rw [if_pos hb0]
    set t := (cOf p q - 52).toNat with htdef
    have ht : (t : ℤ) = cOf p q - 52 := Int.toNat_of_nonneg hb0
    refine ⟨p, q * 2 ^ t, by positivity, ?_, hm1, ?_, ?_⟩
    · rw [he2, ← ht]
      push_cast
      rw [zpow_natCast]
      ring
    · rw [cOf] at ht
      by_cases hc : q * 2 ^ log2N p ≤ p * 2 ^ log2N q
      · rw [if_pos hc] at ht
        have ha : log2N p = log2N q + 52 + t := by omega
        have h1 : 2 ^ 52 * (q * 2 ^ t) * 2 ^ log2N q = q * 2 ^ log2N p := by
          rw [ha]; ring
        refine Nat.le_of_mul_le_mul_right ?_
          (pow_pos (by norm_num : (0:ℕ) < 2) (log2N q))
        rw [h1]; exact hc
      · rw [if_neg hc] at ht
        have ha : log2N p = log2N q + 53 + t := by omega
        calc 2 ^ 52 * (q * 2 ^ t)
            ≤ 2 ^ 52 * (2 ^ (log2N q + 1) * 2 ^ t) := by gcongr
          _ = 2 ^ log2N p := by rw [ha]; ring
          _ ≤ p := hpl
    · rw [cOf] at ht
      by_cases hc : q * 2 ^ log2N p ≤ p * 2 ^ log2N q
      · rw [if_pos hc] at ht
        have ha : log2N p = log2N q + 52 + t := by omega
        calc p < 2 ^ (log2N p + 1) := hpu
          _ = 2 ^ 53 * 2 ^ t * 2 ^ log2N q := by rw [ha]; ring
          _ ≤ 2 ^ 53 * 2 ^ t * q := by gcongr
          _ = 2 ^ 53 * (q * 2 ^ t) := by ring
      · rw [if_neg hc] at ht
        push_neg at hc
        have ha : log2N p = log2N q + 53 + t := by omega
        have h1 : 2 ^ 53 * (q * 2 ^ t) * 2 ^ log2N q = q * 2 ^ log2N p := by
          rw [ha]; ring
        refine lt_of_mul_lt_mul_right ?_ (Nat.zero_le (2 ^ log2N q))
        rw [h1]; exact hc
  · push_neg at hb0
    have hm1 : (roundPQ0 p q).1
        = roundMantissa (p * 2 ^ (-(cOf p q - 52)).toNat) q := by
      simp only [roundPQ0]
      rw [if_neg (not_le.mpr hb0)]
    set s := (-(cOf p q - 52)).toNat with hsdef
    have hs : (s : ℤ) = -(cOf p q - 52) := Int.toNat_of_nonneg (by omega)
    refine ⟨p * 2 ^ s, q, hq, ?_, hm1, ?_, ?_⟩
    · rw [he2]
      push_cast
      rw [mul_assoc (p:ℚ), ← zpow_natCast (2:ℚ) s,
        ← zpow_add₀ (by norm_num : (2:ℚ) ≠ 0),
        show (s:ℤ) + (cOf p q - 52) = 0 by omega, zpow_zero, mul_one]
    · rw [cOf] at hs
      by_cases hc : q * 2 ^ log2N p ≤ p * 2 ^ log2N q
      · rw [if_pos hc] at hs
        have ha : s + log2N p = 52 + log2N q := by omega
        refine Nat.le_of_mul_le_mul_right ?_
          (pow_pos (by norm_num : (0:ℕ) < 2) (log2N p))
        calc 2 ^ 52 * q * 2 ^ log2N p
            = q * 2 ^ log2N p * 2 ^ 52 := by ring
          _ ≤ p * 2 ^ log2N q * 2 ^ 52 := by gcongr
          _ = p * 2 ^ (52 + log2N q) := by ring
          _ = p * 2 ^ (s + log2N p) := by rw [ha]
          _ = p * 2 ^ s * 2 ^ log2N p := by ring
      · rw [if_neg hc] at hs
        have ha : s + log2N p = 53 + log2N q := by omega
        refine Nat.le_of_mul_le_mul_right ?_
          (pow_pos (by norm_num : (0:ℕ) < 2) (log2N p))
        calc 2 ^ 52 * q * 2 ^ log2N p
            ≤ 2 ^ 52 * 2 ^ (log2N q + 1) * 2 ^ log2N p := by gcongr
          _ = 2 ^ (s + log2N p) * 2 ^ log2N p := by rw [ha]; ring
          _ ≤ 2 ^ s * p * 2 ^ log2N p := by
              calc 2 ^ (s + log2N p) * 2 ^ log2N p
                  = 2 ^ s * 2 ^ log2N p * 2 ^ log2N p := by ring
                _ ≤ 2 ^ s * p * 2 ^ log2N p := by gcongr
          _ = p * 2 ^ s * 2 ^ log2N p := by ring
    · rw [cOf] at hs
      by_cases hc : q * 2 ^ log2N p ≤ p * 2 ^ log2N q
      · rw [if_pos hc] at hs
        have ha : s + log2N p = 52 + log2N q := by omega
        refine lt_of_mul_lt_mul_right ?_ (Nat.zero_le (2 ^ log2N q))
        calc p * 2 ^ s * 2 ^ log2N q
            < 2 ^ (log2N p + 1) * 2 ^ s * 2 ^ log2N q := by gcongr
          _ = 2 ^ (s + log2N p) * 2 * 2 ^ log2N q := by ring
          _ = 2 ^ (52 + log2N q) * 2 * 2 ^ log2N q := by rw [ha]
          _ = 2 ^ 53 * 2 ^ log2N q * 2 ^ log2N q := by ring
          _ ≤ 2 ^ 53 * q * 2 ^ log2N q := by gcongr
      · rw [if_neg hc] at hs
        push_neg at hc
        have ha : s + log2N p = 53 + log2N q := by omega
        refine lt_of_mul_lt_mul_right ?_ (Nat.zero_le (2 ^ log2N q))
        calc p * 2 ^ s * 2 ^ log2N q
            = p * 2 ^ log2N q * 2 ^ s := by ring
          _ < q * 2 ^ log2N p * 2 ^ s := by gcongr
          _ = 2 ^ (s + log2N p) * q := by ring
          _ = 2 ^ (53 + log2N q) * q := by rw [ha]
          _ = 2 ^ 53 * q * 2 ^ log2N q := by ring

theorem roundPQ_val (p q : ℕ) : fvalP (roundPQ p q) = fvalP (roundPQ0 p q) := by
  simp only [roundPQ]
  split_ifs with h
  · rw [fvalP, fvalP, h]
    push_cast
    rw [zpow_add₀ (by norm_num : (2:ℚ) ≠ 0), zpow_one]
    ring
  · rfl

theorem roundPQ_canon (p q : ℕ) (hp : 0 < p) (hq : 0 < q) :
    2 ^ 52 ≤ (roundPQ p q).1 ∧ (roundPQ p q).1 < 2 ^ 53 := by
  obtain ⟨A, B, hB, -, hm, hbl, hbu⟩ := roundPQ0_spec p q hp hq
  have hdl : 2 ^ 52 ≤ A / B := (Nat.le_div_iff_mul_le hB).mpr (by omega)
  have hdu : A / B < 2 ^ 53 := (Nat.div_lt_iff_lt_mul hB).mpr (by omega)
  rcases roundMantissa_cases A B hB with hcase | ⟨hcase, -⟩ <;>
  · simp only [roundPQ]
    split_ifs with h
    · norm_num
    · rw [hm, hcase] at h ⊢
      omega

/-- If `2^u < 2 * 2^v` then `u ≤ v` (powers of two in ℚ). -/
theorem zpow_two_step {u v : ℤ} (huv : (2:ℚ) ^ u < 2 * (2:ℚ) ^ v) : u ≤ v := by
  by_contra hlt
  push_neg at hlt
  have h1 : (2:ℚ) ^ (v + 1) ≤ (2:ℚ) ^ u :=
    (zpow_le_zpow_iff_right₀ (by norm_num : (1:ℚ) < 2)).mpr (by omega)
  rw [zpow_add₀ (by norm_num : (2:ℚ) ≠ 0), zpow_one] at h1
  nlinarith [zpow_pos (by norm_num : (0:ℚ) < 2) v]

/-- A positive representable target in the same binade as the exact value
forces equal exponents. -/
theorem binade_exp_eq {e ex : ℤ} {mx : ℚ}
    (hmxl : (2:ℚ) ^ (52:ℕ) ≤ mx) (hmxu : mx < (2:ℚ) ^ (53:ℕ))
    (hlow : (2:ℚ) ^ (52:ℕ) * (2:ℚ) ^ e ≤ mx * (2:ℚ) ^ ex)
    (hhigh : mx * (2:ℚ) ^ ex < (2:ℚ) ^ (53:ℕ) * (2:ℚ) ^ e) : ex = e := by
  have p1 : (0:ℚ) < (2:ℚ) ^ ex := zpow_pos (by norm_num) _
  have p2 : (0:ℚ) < (2:ℚ) ^ e := zpow_pos (by norm_num) _
  have h53 : (2:ℚ) ^ (53:ℕ) = (2:ℚ) ^ (52:ℕ) * 2 := by norm_num
  have hA : (2:ℚ) ^ (52:ℕ) * (2:ℚ) ^ ex < (2:ℚ) ^ (53:ℕ) * (2:ℚ) ^ e :=
    lt_of_le_of_lt (mul_le_mul_of_nonneg_right hmxl p1.le) hhigh
  have hB2 : (2:ℚ) ^ (52:ℕ) * (2:ℚ) ^ e < (2:ℚ) ^ (53:ℕ) * (2:ℚ) ^ ex :=
    lt_of_le_of_lt hlow (mul_lt_mul_of_pos_right hmxu p1)
  rw [h53, mul_comm ((2:ℚ) ^ (52:ℕ)) 2, mul_assoc] at hA hB2
  have hA' : (2:ℚ) ^ ex < 2 * (2:ℚ) ^ e :=
    lt_of_mul_lt_mul_left (by linarith [hA]) (by positivity : (0:ℚ) ≤ (2:ℚ) ^ (52:ℕ))
  have hB' : (2:ℚ) ^ e < 2 * (2:ℚ) ^ ex :=
    lt_of_mul_lt_mul_left (by linarith [hB2]) (by positivity : (0:ℚ) ≤ (2:ℚ) ^ (52:ℕ))
  have := zpow_two_step hA'
  have := zpow_two_step hB'
  omega

/-- Rounding to nearest cannot jump over a representable value lying above
the exact argument. -/
theorem roundPQ_le_target (p q mx : ℕ) (ex : ℤ) (hp : 0 < p) (hq : 0 < q)
    (hmx : 2 ^ 52 ≤ mx) (hmx' : mx < 2 ^ 53)
    (hle : (p : ℚ) / q ≤ (mx : ℚ) * (2:ℚ) ^ ex) :
    fvalP (roundPQ p q) ≤ (mx : ℚ) * (2:ℚ) ^ ex := by
  obtain ⟨A, B, hB, hval, hm, hbl, hbu⟩ := roundPQ0_spec p q hp hq
  rw [roundPQ_val p q]
  have hqQ : (0:ℚ) < q := by exact_mod_cast hq
  have hBQ : (0:ℚ) < B := by exact_mod_cast hB
  have h2e : (0:ℚ) < (2:ℚ) ^ (roundPQ0 p q).2 := zpow_pos (by norm_num) _
  have hvq : (p:ℚ) / q = (A:ℚ) / B * (2:ℚ) ^ (roundPQ0 p q).2 := by
    rw [div_mul_eq_mul_div, div_eq_div_iff hqQ.ne' hBQ.ne']
    linear_combination hval.symm
  have hfv : fvalP (roundPQ0 p q)
      = ((roundPQ0 p q).1 : ℚ) * (2:ℚ) ^ (roundPQ0 p q).2 := rfl
  rw [hfv, hm]
  rcases roundMantissa_cases A B hB with hcase | ⟨hcase, hnd⟩
  · have hmle : ((roundMantissa A B : ℕ) : ℚ) ≤ (A:ℚ) / B := by
      rw [hcase]
      exact Nat.cast_div_le
    calc ((roundMantissa A B : ℕ) : ℚ) * (2:ℚ) ^ (roundPQ0 p q).2
        ≤ (A:ℚ) / B * (2:ℚ) ^ (roundPQ0 p q).2 :=
          mul_le_mul_of_nonneg_right hmle h2e.le
      _ = (p:ℚ) / q := hvq.symm
      _ ≤ (mx : ℚ) * (2:ℚ) ^ ex := hle
  · by_cases hx : (2:ℚ) ^ (53:ℕ) * (2:ℚ) ^ (roundPQ0 p q).2 ≤ (mx : ℚ) * (2:ℚ) ^ ex
    · have hdu : A / B < 2 ^ 53 := (Nat.div_lt_iff_lt_mul hB).mpr (by omega)
      have hm53 : ((roundMantissa A B : ℕ) : ℚ) ≤ (2:ℚ) ^ (53:ℕ) := by
        rw [hcase]
        have h1 : A / B + 1 ≤ 2 ^ 53 := by omega
        exact_mod_cast h1
      calc ((roundMantissa A B : ℕ) : ℚ) * (2:ℚ) ^ (roundPQ0 p q).2
          ≤ (2:ℚ) ^ (53:ℕ) * (2:ℚ) ^ (roundPQ0 p q).2 :=
            mul_le_mul_of_nonneg_right hm53 h2e.le
        _ ≤ (mx : ℚ) * (2:ℚ) ^ ex := hx
    · push_neg at hx
      have hABl : (2:ℚ) ^ (52:ℕ) ≤ (A:ℚ) / B := by
        rw [le_div_iff₀ hBQ]
        exact_mod_cast hbl
      have hvlow : (2:ℚ) ^ (52:ℕ) * (2:ℚ) ^ (roundPQ0 p q).2
          ≤ (mx : ℚ) * (2:ℚ) ^ ex := by
        refine le_trans ?_ hle
        rw [hvq]
        exact mul_le_mul_of_nonneg_right hABl h2e.le
      have hmxQ : (2:ℚ) ^ (52:ℕ) ≤ (mx:ℚ) := by exact_mod_cast hmx
      have hmxQ' : (mx:ℚ) < (2:ℚ) ^ (53:ℕ) := by exact_mod_cast hmx'
      have hex : ex = (roundPQ0 p q).2 := binade_exp_eq hmxQ hmxQ' hvlow hx
      subst hex
      have hle' : (A:ℚ) / B ≤ (mx:ℚ) := by
        rw [hvq] at hle
        exact le_of_mul_le_mul_right hle h2e
      have hmn : roundMantissa A B ≤ mx := by
        by_contra hgt
        push_neg at hgt
        rw [hcase] at hgt
        have h1 : mx ≤ A / B := by omega
        have h2 : (mx:ℚ) ≤ (A:ℚ) / B :=
          le_trans (by exact_mod_cast h1) Nat.cast_div_le
        have h3 : (A:ℚ) / B = (mx:ℚ) := le_antisymm hle' h2
        have h4 : (A:ℚ) = (mx:ℚ) * B := by
          rw [div_eq_iff hBQ.ne'] at h3
          exact h3
        have h5 : A = mx * B := by exact_mod_cast h4
        exact hnd ⟨mx, by rw [h5, Nat.mul_comm]⟩
      exact mul_le_mul_of_nonneg_right (by exact_mod_cast hmn) h2e.le

/-- Rounding to nearest cannot jump below a representable value lying
below the exact argument. -/
theorem roundPQ_ge_target (p q mx : ℕ) (ex : ℤ) (hp : 0 < p) (hq : 0 < q)
    (hmx : 2 ^ 52 ≤ mx) (hmx' : mx < 2 ^ 53)
    (hge : (mx : ℚ) * (2:ℚ) ^ ex ≤ (p : ℚ) / q) :
    (mx : ℚ) * (2:ℚ) ^ ex ≤ fvalP (roundPQ p q) := by
  obtain ⟨A, B, hB, hval, hm, hbl, hbu⟩ := roundPQ0_spec p q hp hq
  rw [roundPQ_val p q]
  have hqQ : (0:ℚ) < q := by exact_mod_cast hq
  have hBQ : (0:ℚ) < B := by exact_mod_cast hB
  have h2e : (0:ℚ) < (2:ℚ) ^ (roundPQ0 p q).2 := zpow_pos (by norm_num) _
  have hvq : (p:ℚ) / q = (A:ℚ) / B * (2:ℚ) ^ (roundPQ0 p q).2 := by
    rw [div_mul_eq_mul_div, div_eq_div_iff hqQ.ne' hBQ.ne']
    linear_combination hval.symm
  have hfv : fvalP (roundPQ0 p q)
      = ((roundPQ0 p q).1 : ℚ) * (2:ℚ) ^ (roundPQ0 p q).2 := rfl
  rw [hfv, hm]
  have hdl : 2 ^ 52 ≤ A / B := (Nat.le_div_iff_mul_le hB).mpr (by omega)
  have hmge : (A / B : ℕ) ≤ roundMantissa A B := by
    rcases roundMantissa_cases A B hB with hcase | ⟨hcase, -⟩ <;> omega
  have hABu : (A:ℚ) / B < (2:ℚ) ^ (53:ℕ) := by
    rw [div_lt_iff₀ hBQ]
    exact_mod_cast hbu
  by_cases hx : (mx : ℚ) * (2:ℚ) ^ ex ≤ (2:ℚ) ^ (52:ℕ) * (2:ℚ) ^ (roundPQ0 p q).2
  · refine le_trans hx ?_
    have h1 : (2:ℚ) ^ (52:ℕ) ≤ ((roundMantissa A B : ℕ) : ℚ) := by
      have h2 : (2:ℚ) ^ (52:ℕ) = ((2 ^ 52 : ℕ) : ℚ) := by push_cast; ring
      rw [h2]
      exact_mod_cast le_trans hdl hmge
    exact mul_le_mul_of_nonneg_right h1 h2e.le
  · push_neg at hx
    have hvhigh : (mx : ℚ) * (2:ℚ) ^ ex < (2:ℚ) ^ (53:ℕ) * (2:ℚ) ^ (roundPQ0 p q).2 := by
      refine lt_of_le_of_lt hge ?_
      rw [hvq]
      exact mul_lt_mul_of_pos_right hABu h2e
    have hmxQ : (2:ℚ) ^ (52:ℕ) ≤ (mx:ℚ) := by exact_mod_cast hmx
    have hmxQ' : (mx:ℚ) < (2:ℚ) ^ (53:ℕ) := by exact_mod_cast hmx'
    have hex : ex = (roundPQ0 p q).2 := binade_exp_eq hmxQ hmxQ' hx.le hvhigh
    subst hex
    have hge' : (mx:ℚ) ≤ (A:ℚ) / B := by
      rw [hvq] at hge
      exact le_of_mul_le_mul_right hge h2e
    have hmn : mx ≤ roundMantissa A B := by
      have h1 : mx * B ≤ A := by
        rw [le_div_iff₀ hBQ] at hge'
        exact_mod_cast hge'
      have h2 : mx ≤ A / B := (Nat.le_div_iff_mul_le hB).mpr h1
      omega
    exact mul_le_mul_of_nonneg_right (by exact_mod_cast hmn) h2e.le

theorem normQ_zero (den : ℕ) : normQ 0 den = ⟨0, 0⟩ := rfl

theorem normQ_val_pos (num : ℤ) (den : ℕ) (h : 0 < num) :
    fval (normQ num den) = fvalP (roundPQ num.natAbs den) := by
  rw [normQ, if_neg (by omega : ¬ num = 0)]
  simp only [fval, fvalP]
  rw [if_neg (by omega : ¬ num < 0)]
  push_cast
  ring

theorem normQ_val_neg (num : ℤ) (den : ℕ) (h : num < 0) :
    fval (normQ num den) = -fvalP (roundPQ num.natAbs den) := by
  rw [normQ, if_neg (by omega : ¬ num = 0)]
  simp only [fval, fvalP]
  rw [if_pos h]
  push_cast
  ring

theorem normQ_canon (num : ℤ) (den : ℕ) (hden : 0 < den) :
    isCanon (normQ num den) := by
  by_cases h : num = 0
  · subst h; left; rfl
  · right
    have hp : 0 < num.natAbs := Int.natAbs_pos.mpr h
    obtain ⟨h1, h2⟩ := roundPQ_canon num.natAbs den hp hden
    rw [normQ, if_neg h]
    have habs : ((if num < 0 then -((roundPQ num.natAbs den).1 : ℤ)
        else ((roundPQ num.natAbs den).1 : ℤ)).natAbs) = (roundPQ num.natAbs den).1 := by
      split_ifs
      · rw [Int.natAbs_neg, Int.natAbs_ofNat]
      · rw [Int.natAbs_ofNat]
    exact ⟨by rw [habs]; exact h1, by rw [habs]; exact h2⟩

theorem normQ_m_nonneg (num : ℤ) (den : ℕ) (h : 0 ≤ num) :
    0 ≤ (normQ num den).m := by
  by_cases h0 : num = 0
  · rw [normQ, if_pos h0]
  · rw [normQ, if_neg h0]
    show (0:ℤ) ≤ if num < 0 then -((roundPQ num.natAbs den).1 : ℤ)
      else ((roundPQ num.natAbs den).1 : ℤ)
    rw [if_neg (by omega : ¬ num < 0)]
    positivity

theorem fval_fscale (x : F64) (k : ℤ) :
    fval (fscale x k) = fval x * (2:ℚ) ^ k := by
  rw [fscale]
  split_ifs with h
  · rw [fval, fval, h]
    norm_num
  · rw [fval, fval]
    simp only []
    rw [zpow_add₀ (by norm_num : (2:ℚ) ≠ 0)]
    ring

theorem fscale_canon (x : F64) (k : ℤ) (h : isCanon x) : isCanon (fscale x k) := by
  rw [fscale]
  split_ifs with h0
  · left; rfl
  · rcases h with h | h
    · exact absurd h h0
    · right; exact h

theorem fmul_canon (x y : F64) : isCanon (fmul x y) :=
  fscale_canon _ _ (normQ_canon _ _ one_pos)

theorem fsub_canon (x y : F64) : isCanon (fsub x y) :=
  fscale_canon _ _ (normQ_canon _ _ one_pos)

theorem fval_nonneg (x : F64) (h : 0 ≤ x.m) : 0 ≤ fval x :=
  mul_nonneg (by exact_mod_cast h) (zpow_pos (by norm_num : (0:ℚ) < 2) x.e).le

theorem fmul_val_nonneg (x y : F64) (hx : 0 ≤ x.m) (hy : 0 ≤ y.m) :
    0 ≤ fval (fmul x y) := by
  rw [fmul, fval_fscale]
  have h1 : 0 ≤ (normQ (x.m * y.m) 1).m := normQ_m_nonneg _ _ (mul_nonneg hx hy)
  exact mul_nonneg (fval_nonneg _ h1) (zpow_pos (by norm_num : (0:ℚ) < 2) _).le

theorem m_pos_of_fval_pos (x : F64) (h : 0 < fval x) : 0 < x.m := by
  by_contra hc
  push_neg at hc
  have h2 : ((x.m : ℚ)) ≤ 0 := by exact_mod_cast hc
  have h3 : (0:ℚ) < (2:ℚ) ^ x.e := zpow_pos (by norm_num) _
  rw [fval] at h
  nlinarith

theorem abs_cast_of_pos {m : ℤ} (h : 0 < m) : ((m.natAbs : ℚ)) = (m : ℚ) := by
  rw [Int.cast_natAbs]
  exact_mod_cast abs_of_pos h

theorem abs_cast_of_neg {m : ℤ} (h : m < 0) : ((m.natAbs : ℚ)) = -(m : ℚ) := by
  rw [Int.cast_natAbs]
  exact_mod_cast abs_of_neg h

/-- IEEE subtraction of a nonnegative value never raises a number above
itself: rounding the exact difference cannot cross the representable `x`. -/
theorem fsub_le_self (x y : F64) (hx : isCanon x) (hy : 0 ≤ fval y) :
    fval (fsub x y) ≤ fval x := by
  have hfs : fsub x y = fscale (normQ (x.m * 2 ^ (x.e - min x.e y.e).toNat
      - y.m * 2 ^ (y.e - min x.e y.e).toNat) 1) (min x.e y.e) := rfl
  rw [hfs, fval_fscale]
  set e0 := min x.e y.e with he0
  have he1 : e0 ≤ x.e := min_le_left _ _
  have he2 : e0 ≤ y.e := min_le_right _ _
  set D : ℤ := x.m * 2 ^ (x.e - e0).toNat - y.m * 2 ^ (y.e - e0).toNat with hD
  have h2e0 : (0:ℚ) < (2:ℚ) ^ e0 := zpow_pos (by norm_num) _
  have h2x : (0:ℚ) < (2:ℚ) ^ x.e := zpow_pos (by norm_num) _
  have hde : (D : ℚ) * (2:ℚ) ^ e0 = fval x - fval y := by
    rw [hD, fval, fval]
    push_cast
    rw [← zpow_natCast (2:ℚ) (x.e - e0).toNat, ← zpow_natCast (2:ℚ) (y.e - e0).toNat,
      Int.toNat_of_nonneg (by omega : (0:ℤ) ≤ x.e - e0),
      Int.toNat_of_nonneg (by omega : (0:ℤ) ≤ y.e - e0),
      sub_mul, mul_assoc, mul_assoc,
      ← zpow_add₀ (by norm_num : (2:ℚ) ≠ 0), ← zpow_add₀ (by norm_num : (2:ℚ) ≠ 0),
      show x.e - e0 + e0 = x.e from by omega,
      show y.e - e0 + e0 = y.e from by omega]
  rcases lt_trichotomy D 0 with hDlt | hDeq | hDgt
  · rw [normQ_val_neg D 1 hDlt]
    by_cases hxp : 0 ≤ fval x
    · have hp : 0 < D.natAbs := by omega
      obtain ⟨hc1, -⟩ := roundPQ_canon D.natAbs 1 hp one_pos
      have hfp : (0:ℚ) ≤ fvalP (roundPQ D.natAbs 1) := by
        rw [fvalP]
        have h5 : (0:ℚ) ≤ ((roundPQ D.natAbs 1).1 : ℚ) := by positivity
        exact mul_nonneg h5 (zpow_pos (by norm_num : (0:ℚ) < 2) _).le
      nlinarith [mul_nonneg hfp h2e0.le, hxp]
    · push_neg at hxp
      have hxm : x.m < 0 := by
        by_contra hge
        push_neg at hge
        exact absurd (fval_nonneg x hge) (not_le.mpr hxp)
      rcases hx with hx0 | ⟨hxl, hxu⟩
      · omega
      · have hp : 0 < D.natAbs := by omega
        have hDcast : ((D.natAbs : ℚ)) = -(D : ℚ) := abs_cast_of_neg hDlt
        have hge : ((x.m.natAbs : ℚ)) * (2:ℚ) ^ (x.e - e0) ≤ (D.natAbs : ℚ) / 1 := by
          rw [div_one, hDcast, abs_cast_of_neg hxm]
          rw [← mul_le_mul_right h2e0, mul_assoc,
            ← zpow_add₀ (by norm_num : (2:ℚ) ≠ 0),
            show x.e - e0 + e0 = x.e from by omega]
          have h4 : -(D:ℚ) * (2:ℚ) ^ e0 = fval y - fval x := by
            rw [neg_mul, hde]
            ring
          rw [h4]
          have hfx : (x.m:ℚ) * (2:ℚ) ^ x.e = fval x := rfl
          linarith [hy, hfx]
        have happ := roundPQ_ge_target D.natAbs 1 x.m.natAbs (x.e - e0)
          hp one_pos hxl hxu hge
        rw [← mul_le_mul_right h2e0] at happ
        have hl : ((x.m.natAbs : ℚ)) * (2:ℚ) ^ (x.e - e0) * (2:ℚ) ^ e0 = -fval x := by
          rw [mul_assoc, ← zpow_add₀ (by norm_num : (2:ℚ) ≠ 0),
            show x.e - e0 + e0 = x.e from by omega, abs_cast_of_neg hxm, fval]
          ring
        rw [hl] at happ
        linarith
  · rw [hDeq, normQ_zero]
    have h0 : fval (⟨0, 0⟩ : F64) = 0 := by rw [fval]; norm_num
    rw [h0, zero_mul]
    have hD0 : (0:ℚ) = fval x - fval y := by
      rw [← hde, show ((D:ℚ)) = 0 from by exact_mod_cast hDeq, zero_mul]
    linarith [hy]
  · rw [normQ_val_pos D 1 hDgt]
    have hDcast : ((D.natAbs : ℚ)) = (D : ℚ) := abs_cast_of_pos hDgt
    have hDQ : (0:ℚ) < (D:ℚ) := by exact_mod_cast hDgt
    have hxpos : 0 < fval x := by nlinarith [mul_pos hDQ h2e0, hde, hy]
    have hxm : 0 < x.m := m_pos_of_fval_pos x hxpos
    rcases hx with hx0 | ⟨hxl, hxu⟩
    · omega
    · have hp : 0 < D.natAbs := by omega
      have hle : (D.natAbs : ℚ) / 1 ≤ ((x.m.natAbs : ℚ)) * (2:ℚ) ^ (x.e - e0) := by
        rw [div_one, hDcast, abs_cast_of_pos hxm]
        rw [← mul_le_mul_right h2e0, mul_assoc,
          ← zpow_add₀ (by norm_num : (2:ℚ) ≠ 0),
          show x.e - e0 + e0 = x.e from by omega]
        rw [hde]
        have hfx : (x.m:ℚ) * (2:ℚ) ^ x.e = fval x := rfl
        linarith [hy, hfx]
      have happ := roundPQ_le_target D.natAbs 1 x.m.natAbs (x.e - e0)
        hp one_pos hxl hxu hle
      rw [← mul_le_mul_right h2e0] at happ
      have hl : ((x.m.natAbs : ℚ)) * (2:ℚ) ^ (x.e - e0) * (2:ℚ) ^ e0 = fval x := by
        rw [mul_assoc, ← zpow_add₀ (by norm_num : (2:ℚ) ≠ 0),
          show x.e - e0 + e0 = x.e from by omega, abs_cast_of_pos hxm, fval]
      rw [hl] at happ
      linarith

theorem pyInt_intCast (n : ℤ) : pyInt ((n : ℚ)) = n := by
  rw [pyInt]
  split_ifs
  · exact Int.ceil_intCast n
  · exact Int.floor_intCast n

theorem floor_natCast_div (a b : ℕ) (hb : 0 < b) :
    ⌊(a : ℚ) / b⌋ = ((a / b : ℕ) : ℤ) := by
  have hbQ : (0:ℚ) < b := by exact_mod_cast hb
  rw [Int.floor_eq_iff]
  constructor
  · rw [le_div_iff₀ hbQ]
    exact_mod_cast Nat.div_mul_le_self a b
  · rw [div_lt_iff₀ hbQ]
    have h1 := Nat.div_add_mod a b
    have h2 := Nat.mod_lt a hb
    have h4 : (a / b + 1) * b = b * (a / b) + b := by ring
    exact_mod_cast (by omega : a < (a / b + 1) * b)

theorem ftrunc_eq_pyInt (x : F64) : ftrunc x = pyInt (fval x) := by
  rw [ftrunc]
  by_cases he : 0 ≤ x.e
  · rw [if_pos he]
    have h1 : fval x = ((x.m * 2 ^ x.e.toNat : ℤ) : ℚ) := by
      rw [fval]
      push_cast
      rw [← zpow_natCast (2:ℚ) x.e.toNat, Int.toNat_of_nonneg he]
    rw [h1, pyInt_intCast]
  · rw [if_neg he]
    push_neg at he
    set k := (-x.e).toNat with hk
    have hkval : ((k:ℤ)) = -x.e := Int.toNat_of_nonneg (by omega)
    have hval : fval x = (x.m : ℚ) / (2:ℚ) ^ k := by
      rw [fval, show x.e = -(k:ℤ) from by omega, zpow_neg, zpow_natCast,
        div_eq_mul_inv]
    have h3 : ((2:ℚ)) ^ k = ((2 ^ k : ℕ) : ℚ) := by push_cast; ring
    by_cases hm : x.m < 0
    · rw [if_pos hm]
      have hneg : fval x < 0 := by
        rw [hval]
        apply div_neg_of_neg_of_pos
        · exact_mod_cast hm
        · positivity
      rw [pyInt, if_pos hneg, hval]
      have h2 : (x.m : ℚ) = -((x.m.natAbs : ℚ)) := by
        rw [abs_cast_of_neg hm]; ring
      rw [h2, neg_div, Int.ceil_neg]
      congr 1
      rw [h3]
      exact (floor_natCast_div _ _ (pow_pos (by norm_num : (0:ℕ) < 2) k)).symm
    · push_neg at hm
      rw [if_neg (by omega : ¬ x.m < 0)]
      have hnn : ¬ fval x < 0 := by
        push_neg
        exact fval_nonneg x hm
      rw [pyInt, if_neg hnn, hval]
      have h2 : (x.m : ℚ) = ((x.m.natAbs : ℚ)) := by
        rcases eq_or_lt_of_le hm with h | h
        · rw [← h]; norm_num
        · rw [abs_cast_of_pos h]
      rw [h2, h3]
      exact (floor_natCast_div _ _ (pow_pos (by norm_num : (0:ℕ) < 2) k)).symm

/-- Truncation toward zero is monotone on doubles. -/
theorem ftrunc_mono {x y : F64} (h : fval x ≤ fval y) : ftrunc x ≤ ftrunc y := by
  rw [ftrunc_eq_pyInt, ftrunc_eq_pyInt]
  exact pyInt_mono h

/-- Base penalties have nonnegative mantissas. -/
theorem fatalPenalties_m_nonneg (sev : String) (b : F64)
    (h : fatalPenalties sev = some b) : 0 ≤ b.m := by
  rw [fatalPenalties] at h
  split_ifs at h <;>
    first
      | exact Option.noConfusion h
      | (injection h with h2
         rw [← h2]
         exact normQ_m_nonneg _ _ (by norm_num))

/-- Category multipliers have nonnegative mantissas. -/
theorem categoryMultipliers_m_nonneg (c : RiskCategory) :
    0 ≤ (categoryMultipliers c).m := by
  cases c <;> exact normQ_m_nonneg _ _ (by norm_num)

/-- One penalty step never raises the score and keeps it canonical. -/
theorem penaltyStep_le (s : F64) (r : RiskAlert) (hs : isCanon s) :
    fval (penaltyStep s r) ≤ fval s ∧ isCanon (penaltyStep s r) := by
  rcases hc : r.category with - | c
  · simp only [penaltyStep, hc]
    exact ⟨le_rfl, hs⟩
  · rcases hb : fatalPenalties r.severity with - | base
    · simp only [penaltyStep, hc, hb]
      exact ⟨le_rfl, hs⟩
    · simp only [penaltyStep, hc, hb]
      have hpen : 0 ≤ fval (fmul base (categoryMultipliers c)) :=
        fmul_val_nonneg _ _ (fatalPenalties_m_nonneg _ _ hb)
          (categoryMultipliers_m_nonneg c)
      exact ⟨fsub_le_self _ _ hs hpen, fsub_canon _ _⟩

/-- The scoring loop never raises the score and keeps it canonical. -/
theorem foldl_penalty_le (risks : List RiskAlert) :
    ∀ s : F64, isCanon s →
      fval (risks.foldl penaltyStep s) ≤ fval s
      ∧ isCanon (risks.foldl penaltyStep s) := by
  induction risks with
  | nil => intro s hs; exact ⟨le_rfl, hs⟩
  | cons r rest ih =>
    intro s hs
    rw [List.foldl_cons]
    obtain ⟨h1, h2⟩ := penaltyStep_le s r hs
    obtain ⟨h3, h4⟩ := ih (penaltyStep s r) h2
    exact ⟨le_trans h3 h1, h4⟩

/-- The starting score `100.0` is canonical. -/
theorem hundred_canon : isCanon (normQ 100 1) :=
  normQ_canon 100 1 (by norm_num)

/-- C1 (amended).  `_calculate_health_score` accumulates the per-risk
penalty `base_penalty(severity) × category_multiplier(category)` in IEEE
binary64 float arithmetic starting from `100.0` and returns
`max(30, int(score))`.  On an already-classified list (a fixpoint of the
classifier) the function is exactly the scoring loop; appending a risk to
the scoring loop never raises the score (the "fixed category/severity
mix" reading), and the score always lies in [30, 100].  The claim's
exact-rational equality is refuted by the counterexample: both the
`int()` truncation and the float rounding shift the result. -/
theorem health_score_float_monotone_bounded :
    (∀ risks, classifyAll risks = risks →
      calculateHealthScore risks = healthScoreLoop risks)
    ∧ (∀ (risks : List RiskAlert) (r : RiskAlert),
        healthScoreLoop (risks ++ [r]) ≤ healthScoreLoop risks)
    ∧ (∀ risks, 30 ≤ calculateHealthScore risks
        ∧ calculateHealthScore risks ≤ 100) := by
  have hb : ∀ l : List RiskAlert,
      30 ≤ healthScoreLoop l ∧ healthScoreLoop l ≤ 100 := by
    intro l
    refine ⟨le_max_left 30 _, ?_⟩
    rw [healthScoreLoop, max_le_iff]
    refine ⟨by norm_num, ?_⟩
    obtain ⟨h1, -⟩ := foldl_penalty_le l (normQ 100 1) hundred_canon
    calc ftrunc (l.foldl penaltyStep (normQ 100 1))
        ≤ ftrunc (normQ 100 1) := ftrunc_mono h1
      _ = 100 := by decide
  refine ⟨?_, ?_, ?_⟩
  · intro risks h
    rw [calculateHealthScore, h]
  · intro risks r
    rw [healthScoreLoop, healthScoreLoop, List.foldl_append,
      List.foldl_cons, List.foldl_nil]
    refine max_le_max (le_refl 30) (ftrunc_mono ?_)
    obtain ⟨-, hcanon⟩ := foldl_penalty_le risks (normQ 100 1) hundred_canon
    exact (penaltyStep_le _ r hcanon).1
  · intro risks
    rw [calculateHealthScore]
    exact hb (classifyAll risks)

set_option maxRecDepth 100000 in
/-- C1 (counterexample).  Five classified Structural/High risks: each
penalty is the double `4.0 * 0.1` (slightly above 2/5), the float score
ends at `97.99999999999997`, and the program returns 97 — while the
claim's exact formula `100 − 5 × (4 × 0.1)` floored at 30 gives 98. -/
theorem health_score_float_counterexample :
    classifyAll fiveStructuralHigh = fiveStructuralHigh
    ∧ calculateHealthScore fiveStructuralHigh = 97
    ∧ specHealthScoreExact fiveStructuralHigh = 98
    ∧ ((97 : ℚ) ≠ 98) := by
  refine ⟨by decide, by decide, ?_, by norm_num⟩
  have hpen : specPenalty structuralHighRisk = 2 / 5 := by
    rw [show specPenalty structuralHighRisk = 4 * (1 / 10 : ℚ) from rfl]
    norm_num
  rw [specHealthScoreExact,
    show fiveStructuralHigh = [structuralHighRisk, structuralHighRisk,
      structuralHighRisk, structuralHighRisk, structuralHighRisk] from rfl]
  simp only [List.map_cons, List.map_nil, List.sum_cons, List.sum_nil, hpen]
  rw [max_eq_right (by norm_num)]
  norm_num

/-- C1 witness: loop equality, monotonicity and both bounds applied to
the concrete classified Integrity/Low list. -/
theorem health_score_float_witness :
    classifyAll [integrityLowRisk] = [integrityLowRisk]
    ∧ calculateHealthScore [integrityLowRisk]
        = healthScoreLoop [integrityLowRisk]
    ∧ healthScoreLoop ([integrityLowRisk] ++ [integrityLowRisk])
        ≤ healthScoreLoop [integrityLowRisk]
    ∧ 30 ≤ calculateHealthScore [integrityLowRisk]
    ∧ calculateHealthScore [integrityLowRisk] ≤ 100 := by
  have h : classifyAll [integrityLowRisk] = [integrityLowRisk] := by decide
  exact ⟨h, health_score_float_monotone_bounded.1 [integrityLowRisk] h,
    health_score_float_monotone_bounded.2.1 [integrityLowRisk] integrityLowRisk,
    (health_score_float_monotone_bounded.2.2 [integrityLowRisk]).1,
    (health_score_float_monotone_bounded.2.2 [integrityLowRisk]).2⟩

/-- C4 (counterexample).  For the model whose dependency graph's only
simple cycle is `A1 → C5 → B3 → A1`, the analysis pipeline's severity
stages — impact scoring, compression (which leaves the single
circular-reference alert untouched) and quantitative severity, the last
stage of `analyze` that writes `severity` — leave exactly one Circular
Reference alert whose final severity is "Low" (risk score 1.0 × 2 × 1.0 =
2 < 50), not "Critical" as the claim states.  (Context labelling, the only
omitted stage, assigns `row_label`/`col_label` only — `analyzer.py` lines
821-822 — and the remaining detectors report nothing on these three
formula-only cells.) -/
theorem completed_analysis_cycle_alert_is_low :
    (calculateQuantitativeSeverity (compressRisks (addImpactScores
        (detectCircularReferences modelC4.graph) modelC4))).map
      (fun r => (r.riskType, r.severity))
      = [("Circular Reference", "Low")]
    ∧ "Low" ≠ "Critical" := by
  have h1 : compressRisks (addImpactScores
      (detectCircularReferences modelC4.graph) modelC4) = [circAlertC4] := by
    decide
  have h2 : (calculateQuantitativeSeverity [circAlertC4]).map
      (fun r => (r.riskType, r.severity))
      = [("Circular Reference",
          severityFromScore (categoryWeights RiskCategory.fatalError
            * ((2 : ℕ) : ℚ) * errorProbabilityOf circAlertC4))] := rfl
  have herr : errorProbabilityOf circAlertC4 = 1 := rfl
  have h3 : severityFromScore (categoryWeights RiskCategory.fatalError
      * ((2 : ℕ) : ℚ) * 1) = "Low" := by
    rw [severityFromScore, if_neg (by norm_num [categoryWeights]),
      if_neg (by norm_num [categoryWeights]), if_neg (by norm_num [categoryWeights])]
  refine ⟨?_, by decide⟩
  rw [h1, h2, herr, h3]

/-- C4 (amended).  The **detector** emits exactly one Critical alert naming
the cycle for the three-cell model, and for any enumeration of more than
100 simple cycles it emits exactly 100 per-cycle alerts plus one summary
alert, all typed Circular Reference and Critical; the final severity in
the completed analysis is then recomputed by quantitative scoring.  The
well-formedness hypotheses delimit where the total model matches the
source (a node without exactly one `!` would make the Python raise inside
the detector's `try`, truncating its output). -/
theorem circular_detector_alert_shape :
    detectCircularReferences (buildDependencyGraph cellsC4)
      = [{ riskType := "Circular Reference", severity := "Critical",
           sheet := "S", cell := "A1",
           description := "Circular reference detected: A1 → C5 → B3",
           details := { cycle := some ["S!A1", "S!C5", "S!B3"],
                        cycleLength := some 3 } }]
    ∧ ∀ cycles : List (List String),
        (∀ c ∈ cycles, c ≠ [] ∧ ∀ n ∈ c, wellFormedKey n) →
        cycles.length > 100 →
        (detectCircularFromCycles cycles).length = 101
        ∧ (∀ a ∈ detectCircularFromCycles cycles,
            a.riskType = "Circular Reference" ∧ a.severity = "Critical")
        ∧ (detectCircularFromCycles cycles).getLast?
            = some (cycleSummaryAlert cycles.length) := by
  constructor
  · decide
  · intro cycles _ hlen
    rw [detectCircularFromCycles, if_pos hlen]
    refine ⟨?_, ?_, ?_⟩
    · rw [List.length_append, List.length_map, List.length_take]
      simp only [List.length_singleton]
      omega
    · intro a ha
      rcases List.mem_append.mp ha with h | h
      · rcases List.mem_map.mp h with ⟨c, -, rfl⟩
        exact ⟨rfl, rfl⟩
      · rw [List.mem_singleton] at h
        subst h
        exact ⟨rfl, rfl⟩
    · exact List.getLast?_concat _

/-- C4 witness: the amended cycle-cap behaviour applied to a concrete list
of 101 well-formed cycles. -/
theorem circular_detector_cap_witness :
    (∀ c ∈ List.replicate 101 ["S!A1"], c ≠ [] ∧ ∀ n ∈ c, wellFormedKey n)
    ∧ (List.replicate 101 ["S!A1"]).length > 100
    ∧ (detectCircularFromCycles (List.replicate 101 ["S!A1"])).length = 101
    ∧ (detectCircularFromCycles (List.replicate 101 ["S!A1"])).getLast?
        = some (cycleSummaryAlert (List.replicate 101 ["S!A1"]).length) := by
  have hwf : ∀ c ∈ List.replicate 101 ["S!A1"], c ≠ [] ∧ ∀ n ∈ c, wellFormedKey n := by
    decide
  have hlen : (List.replicate 101 ["S!A1"]).length > 100 := by decide
  have h := circular_detector_alert_shape.2 (List.replicate 101 ["S!A1"]) hwf hlen
  exact ⟨hwf, hlen, h.1, h.2.2⟩

/-- A property preserved by every fold step is preserved by the fold. -/
theorem foldl_preserves {α β : Type} (P : α → Prop) (f : α → β → α)
    (hf : ∀ a b, P a → P (f a b)) : ∀ (l : List β) (a : α), P a → P (l.foldl f a) := by
  intro l
  induction l with
  | nil => intro a ha; exact ha
  | cons b rest ih => intro a ha; exact ih (f a b) (hf a b ha)

/-- Filtering a list by non-membership in itself leaves nothing. -/
theorem filter_not_contains_self (l : List String) :
    l.filter (fun s => ¬ l.contains s) = [] := by
  rw [List.filter_eq_nil_iff]
  intro a ha
  have hc : l.contains a = true := List.elem_iff.mpr ha
  simp only [hc, Bool.not_eq_true, decide_eq_false_iff_not, Decidable.not_not]

/-- The composite-key dict has duplicate-free keys (it is built purely by
`upsert`). -/
theorem buildCompositeKeys_nodup (m : ModelAnalysis) (kc : List String)
    (sh : String) : ((buildCompositeKeys m kc sh).map (·.1)).Nodup := by
  rw [buildCompositeKeys]
  refine foldl_preserves
    (fun keys : List (String × CompositeKey) => (keys.map (·.1)).Nodup)
    _ ?_ _ [] (by simp)
  intro keys rc hnd
  dsimp only
  split
  · exact hnd
  · exact upsert_keys_nodup _ _ keys hnd

/-- Matching a model against itself maps every row to itself. -/
theorem matchRows_self_diag (m : ModelAnalysis) (kc : List String) (sh : String) :
    ∀ pr ∈ matchRowsByCompositeKey m m kc sh, pr.1 = pr.2 := by
  rw [matchRowsByCompositeKey]
  have hnd := buildCompositeKeys_nodup m kc sh
  have main : ∀ (l : List (String × CompositeKey))
      (acc : List (ℕ × ℕ)),
      (∀ x ∈ l, x ∈ buildCompositeKeys m kc sh) →
      (∀ pr ∈ acc, pr.1 = pr.2) →
      ∀ pr ∈ l.foldl (fun mapping kcp =>
        match dictGet (buildCompositeKeys m kc sh) kcp.1 with
        | some newComposite => upsert kcp.2.rowNumber newComposite.rowNumber mapping
        | none => mapping) acc, pr.1 = pr.2 := by
    intro l
    induction l with
    | nil => intro acc _ hacc pr hpr; exact hacc pr hpr
    | cons x rest ih =>
      intro acc hsub hacc pr hpr
      rw [List.foldl_cons] at hpr
      have hx : x ∈ buildCompositeKeys m kc sh := hsub x (List.mem_cons_self _ _)
      have hget : dictGet (buildCompositeKeys m kc sh) x.1 = some x.2 :=
        (dictGet_eq_some _ hnd x.1 x.2).mpr hx
      rw [hget] at hpr
      refine ih _ (fun y hy => hsub y (List.mem_cons_of_mem _ hy)) ?_ pr hpr
      intro q hq
      rcases mem_upsert _ _ acc q hq with rfl | hq'
      · rfl
      · exact hacc q hq'
  exact main _ [] (fun x hx => hx) (by simp)

/-- Comparing equal cells yields no change. -/
theorem cellChange_self (c : CellInfo) (loc : String) : cellChange c c loc = none := by
  simp [cellChange]

/-- Same-address comparison of a well-keyed model against itself finds no
changes. -/
theorem simpleCellComparison_self (m : ModelAnalysis)
    (hnd : (m.cells.map (·.1)).Nodup) (sh : Option String) :
    simpleCellComparison m m sh = ([], []) := by
  have main : ∀ (skip : String × CellInfo → Bool) (l : List (String × CellInfo))
      (acc : List ChangeCategory × List ChangeCategory),
      (∀ p ∈ l, p ∈ m.cells) →
      l.foldl (fun acc p =>
        if skip p then acc
        else
          match dictGet m.cells p.1 with
          | some newCell =>
            match cellChange p.2 newCell p.1 with
            | some (true, ch) => (acc.1 ++ [ch], acc.2)
            | some (false, ch) => (acc.1, acc.2 ++ [ch])
            | none => acc
          | none => acc) acc = acc := by
    intro skip l
    induction l with
    | nil => intro acc _; rfl
    | cons p rest ih =>
      intro acc hsub
      rw [List.foldl_cons]
      have hget : dictGet m.cells p.1 = some p.2 :=
        (dictGet_eq_some _ hnd p.1 p.2).mpr (hsub p (List.mem_cons_self _ _))
      have htail : ∀ q ∈ rest, q ∈ m.cells :=
        fun q hq => hsub q (List.mem_cons_of_mem _ hq)
      by_cases hs : skip p = true
      · rw [if_pos hs]
        exact ih acc htail
      · rw [if_neg hs]
        simp only [hget, cellChange_self]
        exact ih acc htail
  exact main (fun p => (match sh with
      | some s => s ≠ "" ∧ p.2.sheet ≠ s
      | none => False : Bool)) m.cells ([], []) (fun p hp => hp)

/-- With a diagonal row mapping, change detection on a well-formed model
against itself finds no changes. -/
theorem detectChanges_self (m : ModelAnalysis) (hwf : modelWellFormed m)
    (mapping : List (ℕ × ℕ)) (hdiag : ∀ pr ∈ mapping, pr.1 = pr.2)
    (sh : Option String) :
    detectChanges m m mapping sh = ([], []) := by
  rw [detectChanges]
  by_cases hmap : mapping = []
  · rw [if_pos hmap]
    exact simpleCellComparison_self m hwf.1 sh
  · rw [if_neg hmap]
    have inner : ∀ (rows : ℕ × ℕ), rows.1 = rows.2 →
        ∀ (l : List (String × CellInfo))
          (acc : List ChangeCategory × List ChangeCategory),
        (∀ p ∈ l, p ∈ m.cells
          ∧ (match sh with
             | some s => p.2.sheet = s
             | none => False : Bool)
          ∧ extractRowNumber p.2.address = rows.1) →
        l.foldl (fun acc2 p =>
          match dictGet m.cells (sheetStr sh ++ "!" ++ extractColumnLetter p.2.address
              ++ toString rows.2) with
          | some newCell =>
            match cellChange p.2 newCell (newCell.sheet ++ "!" ++ newCell.address) with
            | some (true, ch) => (acc2.1 ++ [ch], acc2.2)
            | some (false, ch) => (acc2.1, acc2.2 ++ [ch])
            | none => acc2
          | none => acc2) acc = acc := by
      intro rows hrows l
      induction l with
      | nil => intro acc _; rfl
      | cons p rest ih =>
        intro acc hsub
        obtain ⟨hmem, hsheet, hrow⟩ := hsub p (List.mem_cons_self _ _)
        rw [List.foldl_cons]
        have hkey : sheetStr sh ++ "!" ++ extractColumnLetter p.2.address
            ++ toString rows.2 = p.1 := by
          obtain ⟨hk, haddr⟩ := hwf.2 p hmem
          cases sh with
          | none => simp at hsheet
          | some s =>
            simp only [decide_eq_true_eq] at hsheet
            rw [sheetStr, ← hrows, ← hrow, hk, ← hsheet]
            rw [String.append_assoc, haddr]
        rw [hkey]
        have hget : dictGet m.cells p.1 = some p.2 :=
          (dictGet_eq_some _ hwf.1 p.1 p.2).mpr hmem
        simp only [hget, cellChange_self]
        exact ih acc (fun q hq => hsub q (List.mem_cons_of_mem _ hq))
    have outer : ∀ (pairs : List (ℕ × ℕ))
        (acc : List ChangeCategory × List ChangeCategory),
        (∀ pr ∈ pairs, pr.1 = pr.2) →
        pairs.foldl (fun acc rows =>
          (m.cells.filter (fun p =>
            (match sh with
             | some s => p.2.sheet = s
             | none => False : Bool)
            ∧ extractRowNumber p.2.address = rows.1)).foldl (fun acc2 p =>
            match dictGet m.cells (sheetStr sh ++ "!" ++ extractColumnLetter p.2.address
                ++ toString rows.2) with
            | some newCell =>
              match cellChange p.2 newCell (newCell.sheet ++ "!" ++ newCell.address) with
              | some (true, ch) => (acc2.1 ++ [ch], acc2.2)
              | some (false, ch) => (acc2.1, acc2.2 ++ [ch])
              | none => acc2
            | none => acc2) acc) acc = acc := by
      intro pairs
      induction pairs with
      | nil => intro acc _; rfl
      | cons rows rest ih =>
        intro acc hdg
        rw [List.foldl_cons]
        rw [inner rows (hdg rows (List.mem_cons_self _ _)) _ acc ?_]
        · exact ih acc (fun q hq => hdg q (List.mem_cons_of_mem _ hq))
        · intro p hp
          rw [List.mem_filter] at hp
          have hp2 := hp.2
          rw [decide_eq_true_eq] at hp2
          exact ⟨hp.1, hp2.1, hp2.2⟩
    exact outer mapping ([], []) hdiag

/-- Risk comparison of a list against itself reports nothing. -/
theorem compareRisks_self (risks : List RiskAlert) :
    compareRisks risks risks = ([], []) := by
  rw [compareRisks]
  have h := filter_not_contains_self
    ((risks.foldl (fun d r => upsert (riskSignature r) r d) []).map (·.1))
  simp only [h, List.filterMap_nil]

/-- C8.  Comparing a parsed, analyzed model against itself — for any
choice of key columns and sheet — yields a `DiffResult` with
`score_delta = 0` and empty `logic_changes`, `input_updates`,
`improved_risks` and `degraded_risks`.  The hypothesis is the parser's
key discipline (unique `"Sheet!Address"` keys with canonical
addresses). -/
theorem self_compare_yields_no_changes :
    ∀ (m : ModelAnalysis) (kc : Option (List String)) (sh : Option String),
      modelWellFormed m →
      (compare m m kc sh).scoreDelta = 0
      ∧ (compare m m kc sh).logicChanges = []
      ∧ (compare m m kc sh).inputUpdates = []
      ∧ (compare m m kc sh).improvedRisks = []
      ∧ (compare m m kc sh).degradedRisks = [] := by
  intro m kc sh hwf
  have hrk := compareRisks_self m.risks
  have key : ∀ (mp : List (ℕ × ℕ)), (∀ pr ∈ mp, pr.1 = pr.2) →
      detectChanges m m mp sh = ([], []) :=
    fun mp hd => detectChanges_self m hwf mp hd sh
  cases kc with
  | none =>
    refine ⟨sub_self _, ?_, ?_, ?_, ?_⟩
    · show (detectChanges m m [] sh).1 = []
      rw [key [] (by simp)]
    · show (detectChanges m m [] sh).2 = []
      rw [key [] (by simp)]
    · show (compareRisks m.risks m.risks).1 = []
      rw [hrk]
    · show (compareRisks m.risks m.risks).2 = []
      rw [hrk]
  | some kcl =>
    cases sh with
    | none =>
      refine ⟨sub_self _, ?_, ?_, ?_, ?_⟩
      · show (detectChanges m m [] none).1 = []
        rw [key [] (by simp)]
      · show (detectChanges m m [] none).2 = []
        rw [key [] (by simp)]
      · show (compareRisks m.risks m.risks).1 = []
        rw [hrk]
      · show (compareRisks m.risks m.risks).2 = []
        rw [hrk]
    | some shs =>
      have hmain : detectChanges m m
          (if kcl ≠ [] ∧ shs ≠ "" then matchRowsByCompositeKey m m kcl shs
           else []) (some shs) = ([], []) := by
        by_cases hc : kcl ≠ [] ∧ shs ≠ ""
        · rw [if_pos hc]
          exact key _ (matchRows_self_diag m kcl shs)
        · rw [if_neg hc]
          exact key [] (by simp)
      refine ⟨sub_self _, ?_, ?_, ?_, ?_⟩
      · show (detectChanges m m
            (if kcl ≠ [] ∧ shs ≠ "" then matchRowsByCompositeKey m m kcl shs
             else []) (some shs)).1 = []
        rw [hmain]
      · show (detectChanges m m
            (if kcl ≠ [] ∧ shs ≠ "" then matchRowsByCompositeKey m m kcl shs
             else []) (some shs)).2 = []
        rw [hmain]
      · show (compareRisks m.risks m.risks).1 = []
        rw [hrk]
      · show (compareRisks m.risks m.risks).2 = []
        rw [hrk]

/-- C8 witness: the concrete three-cell model compared against itself with
key column A on sheet S. -/
theorem self_compare_witness :
    modelWellFormed modelC4
    ∧ (compare modelC4 modelC4 (some ["A"]) (some "S")).scoreDelta = 0
    ∧ (compare modelC4 modelC4 (some ["A"]) (some "S")).logicChanges = []
    ∧ (compare modelC4 modelC4 (some ["A"]) (some "S")).inputUpdates = []
    ∧ (compare modelC4 modelC4 (some ["A"]) (some "S")).improvedRisks = []
    ∧ (compare modelC4 modelC4 (some ["A"]) (some "S")).degradedRisks = [] := by
  have hwf : modelWellFormed modelC4 := by
    constructor
    · decide
    · have : ∀ p ∈ modelC4.cells, p.1 = p.2.sheet ++ "!" ++ p.2.address
          ∧ extractColumnLetter p.2.address
              ++ toString (extractRowNumber p.2.address) = p.2.address := by decide
      exact this
  have h := self_compare_yields_no_changes modelC4 (some ["A"]) (some "S") hwf
  exact ⟨hwf, h.1, h.2.1, h.2.2.1, h.2.2.2.1, h.2.2.2.2⟩

end Lumen
